import Mathlib

/-!
Verification of the request-construction pipeline of `requests4go`
(`request.go`, `utils.go`): body-strategy resolution (`prepareBody`),
query merging (`prepareURL`, `prepareURLWithStruct`, `mergeParams`),
multipart encoding (`prepareFilesBody`), cookie reconciliation
(`prepareCookies`) and request assembly (`prepareRequest`).

Modelling conventions:
* Go strings are modelled as `List Char` (`Str`); where byte-exactness
  matters (Basic auth) byte lists `List Nat` are used, since a Go string
  is a byte sequence.
* Go maps are modelled as association lists with Go-map semantics
  (assignment overwrites the entry for an existing key, otherwise appends);
  Go's randomized map iteration order is modelled by list order — theorems
  that depend on a per-key result are order-independent for maps with
  distinct keys, which Go maps guarantee.
* Mutation (of `args.Headers`, of `args.Client.Jar`, of a cookie jar) is
  modelled by explicit state passing: a function returns the updated value.
* Go panics (nil-map write, nil-pointer dereference, index out of range)
  are modelled as explicit outcome constructors.
* `net/url` (parse, query encode/decode, escaping) is embedded for the
  fragment of URLs the claims exercise: ASCII URLs whose rendering by
  `URL.String()` is verbatim (no re-encoding of the path).  Query
  escaping/unescaping follows `url.QueryEscape` / `url.QueryUnescape`.
-/

namespace Requests4go

/-- Go strings as lists of characters (byte-transparent for ASCII). -/
abbrev Str := List Char

/-- Convert a Lean string literal to the `Str` model. -/
def str (s : String) : Str := s.data

/-- First-match lookup in an association list (Go map read). -/
def lookupStr (l : List (Str × Str)) (k : Str) : Option Str :=
  match l with
  | [] => none
  | kv :: r => if kv.1 = k then some kv.2 else lookupStr r k

/-- Go map assignment `m[k] = v`: overwrite the entry for `k` if present,
otherwise append a new entry. -/
def mapSet (m : List (Str × Str)) (k v : Str) : List (Str × Str) :=
  match m with
  | [] => [(k, v)]
  | kv :: r => if kv.1 = k then (k, v) :: r else kv :: mapSet r k v

/-- Values collected for one key by a flat pair list, in order. -/
def valuesFor (k : Str) : List (Str × Str) → List Str
  | [] => []
  | kv :: r => if kv.1 = k then kv.2 :: valuesFor k r else valuesFor k r

/-! ### net/url.Values -/

/-- Model of Go `url.Values`: a map from key to the ordered list of values. -/
abbrev Values := List (Str × List Str)

/-- `url.Values.Get`-like read of the full value list of a key
(empty list when absent — a Go map read of a missing key). -/
def Values.get (m : Values) (k : Str) : List Str :=
  match m with
  | [] => []
  | kv :: r => if kv.1 = k then kv.2 else Values.get r k

/-- `url.Values.Set k v`: replace the values of `k` by the single value `v`. -/
def Values.set (m : Values) (k v : Str) : Values :=
  match m with
  | [] => [(k, [v])]
  | kv :: r => if kv.1 = k then (k, [v]) :: r else kv :: Values.set r k v

/-- `url.Values.Add k v`: append `v` to the values of `k`. -/
def Values.add (m : Values) (k v : Str) : Values :=
  match m with
  | [] => [(k, [v])]
  | kv :: r => if kv.1 = k then (kv.1, kv.2 ++ [v]) :: r else kv :: Values.add r k v

/-- Flatten a `Values` map to the (key, value) pairs it emits, keys in map
order, values per key in order (as `url.Values.Encode` iterates). -/
def Values.pairs (m : Values) : List (Str × Str) :=
  match m with
  | [] => []
  | kv :: r => kv.2.map (fun v => (kv.1, v)) ++ Values.pairs r

/-! ### Query escaping (url.QueryEscape / url.QueryUnescape) -/

/-- Characters `url.QueryEscape` leaves unescaped: ASCII alphanumerics and
`-`, `_`, `.`, `~` (written as code-point ranges, as Go's byte test does). -/
def isUnreservedChar (c : Char) : Bool :=
  (65 ≤ c.toNat && c.toNat ≤ 90) || (97 ≤ c.toNat && c.toNat ≤ 122) ||
    (48 ≤ c.toNat && c.toNat ≤ 57) || c = '-' || c = '_' || c = '.' || c = '~'

/-- All characters of the string are unreserved (so query encoding and
decoding leave it verbatim). -/
def safeStr (s : Str) : Bool := s.all isUnreservedChar

/-- Uppercase hex digit of a value below 16, as written by Go's escaper. -/
def hexUp (n : Nat) : Char :=
  if n < 10 then Char.ofNat (48 + n) else Char.ofNat (55 + n)

/-- `url.QueryEscape`: keep unreserved characters, turn space into `+`,
percent-encode everything else (byte model: the character's code point). -/
def queryEscape : Str → Str
  | [] => []
  | c :: cs =>
    (if isUnreservedChar c then [c]
     else if c = ' ' then ['+']
     else ['%', hexUp (c.toNat / 16 % 16), hexUp (c.toNat % 16)]) ++ queryEscape cs

/-- Value of a hex digit character, `none` if not a hex digit
(as `url.QueryUnescape` validates). -/
def hexVal (c : Char) : Option Nat :=
  if 48 ≤ c.toNat ∧ c.toNat ≤ 57 then some (c.toNat - 48)
  else if 65 ≤ c.toNat ∧ c.toNat ≤ 70 then some (c.toNat - 55)
  else if 97 ≤ c.toNat ∧ c.toNat ≤ 102 then some (c.toNat - 87)
  else none

/-- `url.QueryUnescape`: `+` becomes space, `%XY` becomes the byte `XY`
(error when the hex is invalid or truncated), other characters verbatim. -/
def queryUnescape : Str → Option Str
  | [] => some []
  | '%' :: a :: b :: rest =>
    match hexVal a, hexVal b with
    | some x, some y => (queryUnescape rest).map (fun r => Char.ofNat (16 * x + y) :: r)
    | _, _ => none
  | ['%'] => none
  | ['%', _] => none
  | '+' :: cs => (queryUnescape cs).map (fun r => ' ' :: r)
  | c :: cs => (queryUnescape cs).map (fun r => c :: r)

/-- All keys and values of a `Values` map are safe (query encoding and
decoding leave them verbatim). -/
def SafeV (m : Values) : Prop :=
  ∀ kv ∈ m, safeStr kv.1 = true ∧ ∀ v ∈ kv.2, safeStr v = true

/-! ### Splitting and joining -/

/-- Split a string at every occurrence of `sep`
(`strings.Split`; the iterated `strings.Cut` loop of `url.parseQuery`
visits exactly these segments). -/
def splitOnChar (sep : Char) : Str → List Str
  | [] => [[]]
  | c :: cs =>
    if c = sep then [] :: splitOnChar sep cs
    else
      match splitOnChar sep cs with
      | [] => [[c]]
      | s :: ss => (c :: s) :: ss

/-- `strings.Cut`: the part before the first `sep`, the part after it, and
whether `sep` occurred. -/
def cutChar (sep : Char) : Str → Str × Str × Bool
  | [] => ([], [], false)
  | c :: cs =>
    if c = sep then ([], cs, true)
    else
      let r := cutChar sep cs
      (c :: r.1, r.2.1, r.2.2)

/-- Join segments with `&` between them (how `url.Values.Encode` writes its
buffer: a separator before every pair except the first). -/
def joinAmp : List Str → Str
  | [] => []
  | [s] => s
  | s :: rest => s ++ '&' :: joinAmp rest

/-! ### ParseQuery and Encode -/

/-- One pass of `url.parseQuery` over the pre-split segments: a segment
containing `;` is rejected, an empty segment is skipped, otherwise the
segment is cut at the first `=` and both sides are unescaped; an unescape
failure flags an error and skips the segment. -/
def parseQSegs : List Str → Values → Bool → Values × Bool
  | [], m, e => (m, e)
  | seg :: rest, m, e =>
    if ';' ∈ seg then parseQSegs rest m true
    else if seg = [] then parseQSegs rest m e
    else
      let c := cutChar '=' seg
      match queryUnescape c.1, queryUnescape c.2.1 with
      | some k, some v => parseQSegs rest (Values.add m k v) e
      | _, _ => parseQSegs rest m true

/-- `url.ParseQuery`: the parsed map together with an error flag. -/
def goParseQuery (q : Str) : Values × Bool :=
  parseQSegs (splitOnChar '&' q) [] false

/-- Byte-wise (here: code-point-wise) lexicographic order on strings, as
`sort.Strings` orders the keys in `url.Values.Encode`. -/
def strLeB : Str → Str → Bool
  | [], _ => true
  | _ :: _, [] => false
  | a :: as, b :: bs =>
    if a.toNat < b.toNat then true
    else if b.toNat < a.toNat then false
    else strLeB as bs

/-- `url.Values.Encode`: keys sorted, each (key, value) pair emitted as
`escape(k)=escape(v)`, pairs joined by `&`. -/
def Values.encode (m : Values) : Str :=
  joinAmp ((Values.pairs (m.insertionSort (fun a b => strLeB a.1 b.1 = true))).map
    (fun kv => queryEscape kv.1 ++ '=' :: queryEscape kv.2))

/-! ### URL model (net/url.URL for the verbatim-rendering fragment) -/

/-- Model of a parsed `url.URL`: the part before the query, the raw query,
the fragment, and Go's `ForceQuery` flag (a trailing `?` with empty query). -/
structure GoURL where
  pre : Str
  rawQuery : Str
  fragment : Str
  forceQuery : Bool
  deriving DecidableEq, Repr

/-- Splitting step of `url.Parse`: fragment after the first `#`, raw query
after the first `?` of the remainder. -/
def parseGoURL (s : Str) : GoURL :=
  let f := cutChar '#' s
  let q := cutChar '?' f.1
  ⟨q.1, q.2.1, f.2.1, q.2.2 && decide (q.2.1 = [])⟩

/-- `url.Parse` with its error case: Go rejects ASCII control characters in
a URL; the structural split itself is modelled as total. -/
def parseGoURLE (s : Str) : Option GoURL :=
  if s.any (fun c => c.toNat < 32) then none else some (parseGoURL s)

/-- `url.URL.String` on the modelled fragment: prefix, then `?` + raw query
when present or forced, then `#` + fragment when present. -/
def urlString (u : GoURL) : Str :=
  u.pre ++ (if u.forceQuery || !decide (u.rawQuery = []) then '?' :: u.rawQuery else [])
    ++ (if u.fragment = [] then [] else '#' :: u.fragment)

/-- Fuel-driven core of `strings.Replace(s, pat, rep, -1)` for a non-empty
pattern: scan left to right, replacing non-overlapping occurrences.  The
fuel only serves termination; `s.length` steps always suffice. -/
def replaceAllF : Nat → Str → Str → Str → Str
  | 0, s, _, _ => s
  | fuel + 1, s, pat, rep =>
    if pat ≠ [] ∧ pat.isPrefixOf s then rep ++ replaceAllF fuel (s.drop pat.length) pat rep
    else
      match s with
      | [] => []
      | c :: cs => c :: replaceAllF fuel cs pat rep

/-- `strings.Replace(s, pat, rep, -1)`. -/
def replaceAll (s pat rep : Str) : Str := replaceAllF s.length s pat rep

/-- `mergeParams` (request.go): delete every occurrence of
`"?" + RawQuery` from the rendered URL, then append `?` and the re-encoded
query. -/
def mergeParams (u : GoURL) (vs : Values) : Str :=
  replaceAll (urlString u) ('?' :: u.rawQuery) [] ++ '?' :: Values.encode vs

/-- `prepareURL` (request.go): no-op for an empty parameter map, otherwise
parse the URL, parse its query, `Set` every parameter, and rebuild.
The Go map iteration over `params` is modelled by list order. -/
def prepareURL (originUrl : Str) (params : List (Str × Str)) : Except Str Str :=
  if params.length = 0 then .ok originUrl
  else
    match parseGoURLE originUrl with
    | none => .error (str "prepareURL error")
    | some u =>
      let pq := goParseQuery u.rawQuery
      if pq.2 then .error (str "prepareJsonBody error")
      else .ok (mergeParams u (params.foldl (fun m kv => Values.set m kv.1 kv.2) pq.1))

/-- `prepareURLWithStruct` (request.go).  The external
`go-querystring/query.Values` reflection of the struct is modelled by the
`url.Values` it produces; every one of its (key, value) pairs is `Add`ed. -/
def prepareURLWithStruct (originUrl : Str) (paramStruct : Values) : Except Str Str :=
  match parseGoURLE originUrl with
  | none => .error (str "prepareURLWithStruct error")
  | some u =>
    let pq := goParseQuery u.rawQuery
    if pq.2 then .error (str "prepareURLWithStruct error")
    else .ok (mergeParams u ((Values.pairs paramStruct).foldl
      (fun m kv => Values.add m kv.1 kv.2) pq.1))

/-! ### Bodies, body strategies (prepareBody and helpers) -/

/-- Modelled from the spec: the Content-Type constant written for the json
strategy (`defaultJsonType`), declared outside `src/`; §4.2 forces
`application/json`. -/
def defaultJsonType : Str := str "application/json"

/-- Modelled from the spec: the Content-Type constant written for the data
strategy (`defaultContentType`), declared outside `src/`; §4.2 sets
`application/x-www-form-urlencoded`. -/
def defaultContentType : Str := str "application/x-www-form-urlencoded"

/-- The body handed to `http.NewRequest`: the caller's own reader (opaque
identity), a `strings.Reader`, a `bytes.Reader`, or the multipart buffer
(kept at part granularity — no claim concerns the exact boundary bytes). -/
inductive GoBody where
  | reader (id : Nat)
  | strReader (s : Str)
  | bytesReader (b : List Nat)
  | buffer (fileParts : List (Str × Str × List Nat)) (fieldParts : List (Str × Str))
  deriving DecidableEq, Repr

/-- The `Json` field: Go `interface{}` holding a string, a byte slice, or
an arbitrary value; the external `json.Marshal` of an arbitrary value is
modelled by the result it returns. -/
inductive GoJson where
  | str (s : Str)
  | bytes (b : List Nat)
  | value (marshal : Except Str (List Nat))
  deriving Repr

/-- `prepareJsonBody` (request.go): strings and byte slices wrap directly,
anything else goes through `json.Marshal` whose failure is wrapped. -/
def prepareJsonBody : GoJson → Except Str GoBody
  | .str s => .ok (.strReader s)
  | .bytes b => .ok (.bytesReader b)
  | .value (.ok bs) => .ok (.bytesReader bs)
  | .value (.error e) => .error (str "prepareJsonBody error: " ++ e)

/-- `FileField` (request.go).  The `io.ReadCloser` stream is modelled by
its content and by whether copying from it (`io.Copy`) or closing it
(`Close`) fails. -/
structure FileField where
  fileName : Str
  fieldName : Str
  content : List Nat
  readErr : Bool
  closeErr : Bool
  deriving DecidableEq, Repr

/-- Result of `prepareFilesBody`: the body and content type (zero values on
error, as Go returns), the error flag, and — for the resource accounting —
how many times each file's stream was closed. -/
structure FilesResult where
  body : Option GoBody
  contentType : Str
  err : Bool
  closes : List Nat
  deriving DecidableEq, Repr

/-- `multipart.Writer.FormDataContentType`. -/
def multipartContentType (boundary : Str) : Str :=
  str "multipart/form-data; boundary=" ++ boundary

/-- Loop of `prepareFilesBody` over the files: `CreateFormFile` cannot fail
into a `bytes.Buffer`, `io.Copy` fails iff the stream read fails (stream
not closed), then `Close` is called (counted) and its error propagated.
On any error the function returns at once, leaving later streams untouched. -/
def filesLoop : List FileField → List (Str × Str × List Nat) →
    Option (List (Str × Str × List Nat)) × Bool × List Nat
  | [], acc => (some acc, false, [])
  | f :: rest, acc =>
    if f.readErr then (none, true, 0 :: rest.map (fun _ => 0))
    else if f.closeErr then (none, true, 1 :: rest.map (fun _ => 0))
    else
      let r := filesLoop rest (acc ++ [(f.fieldName, f.fileName, f.content)])
      (r.1, r.2.1, 1 :: r.2.2)

/-- `prepareFilesBody` (request.go): stream every file into the multipart
writer, then add every `data` entry as an ordinary field, then close the
writer (which cannot fail into a `bytes.Buffer`).  The writer's random
boundary is an input of the model. -/
def prepareFilesBody (files : List FileField) (data : List (Str × Str))
    (boundary : Str) : FilesResult :=
  let r := filesLoop files []
  match r.1 with
  | none => ⟨none, [], true, r.2.2⟩
  | some parts => ⟨some (.buffer parts data), multipartContentType boundary, false, r.2.2⟩

/-- `encodeParams` (request.go): load the data map into a fresh
`url.Values` via `Set` and encode it. -/
def encodeParams (data : List (Str × Str)) : Str :=
  Values.encode (data.foldl (fun m kv => Values.set m kv.1 kv.2) [])

/-- `prepareDataBody` (request.go). -/
def prepareDataBody (data : List (Str × Str)) : GoBody :=
  .strReader (encodeParams data)

/-! ### Cookies, client, jar -/

/-- `http.Cookie` as used here: a name/value pair (`cookiesFromMap`). -/
structure Cookie where
  name : Str
  value : Str
  deriving DecidableEq, Repr

/-- A cookie jar, modelled as a map from (rendered) request URL to the
cookie list the jar holds for it. -/
structure Jar where
  store : List (Str × List Cookie)
  deriving DecidableEq, Repr

/-- `CookieJar.Cookies(u)`. -/
def Jar.cookiesFor (j : Jar) (u : Str) : List Cookie :=
  match j.store.find? (fun kv => kv.1 = u) with
  | some kv => kv.2
  | none => []

/-- Store update underlying `CookieJar.SetCookies`. -/
def storeSet (u : Str) (cs : List Cookie) : List (Str × List Cookie) →
    List (Str × List Cookie)
  | [] => [(u, cs)]
  | kv :: r => if kv.1 = u then (u, cs) :: r else kv :: storeSet u cs r

/-- `CookieJar.SetCookies(u, cs)`. -/
def Jar.setCookies (j : Jar) (u : Str) (cs : List Cookie) : Jar :=
  ⟨storeSet u cs j.store⟩

/-- The `http.Client` as the pipeline touches it: its `Jar` field (a nil
interface is `none`).  `sendRequest` guarantees the client itself is
non-nil before `prepareRequest` runs. -/
structure GoClient where
  jar : Option Jar
  deriving DecidableEq, Repr

/-- `cookiesFromMap` (the repo's helper): one cookie per map entry, map
iteration modelled by list order. -/
def cookiesFromMap (m : List (Str × Str)) : List Cookie :=
  m.map (fun kv => ⟨kv.1, kv.2⟩)

/-! ### Headers, canonicalization, http.Header -/

/-- Valid HTTP token characters (`httpguts.IsTokenRune`): ASCII
alphanumerics and the RFC 7230 specials. -/
def isTokenChar (c : Char) : Bool :=
  c.isAlpha || c.isDigit || (str "!#$%&'*+-.^_`|~").contains c

/-- Case-folding pass of `textproto.CanonicalMIMEHeaderKey`: uppercase at
the start and after each `-`, lowercase elsewhere. -/
def canonPass : Bool → Str → Str
  | _, [] => []
  | up, c :: cs => (if up then c.toUpper else c.toLower) :: canonPass (c = '-') cs

/-- `textproto.CanonicalMIMEHeaderKey`: keys containing a non-token
character are returned unchanged, otherwise canonically cased. -/
def canonicalKey (s : Str) : Str :=
  if s.all isTokenChar then canonPass true s else s

/-- `http.Header.Set` (the only write the pipeline performs): store under
the canonical key, overwriting. -/
def headerSet (h : List (Str × Str)) (k v : Str) : List (Str × Str) :=
  mapSet h (canonicalKey k) v

/-- Read a header under its canonical key (`http.Header.Get`). -/
def headerGet (h : List (Str × Str)) (k : Str) : Option Str :=
  lookupStr h (canonicalKey k)

/-! ### Basic auth (http.Request.SetBasicAuth / BasicAuth) -/

/-- The standard base64 alphabet. -/
def b64Alphabet : Str :=
  str "ABCDEFGHIJKLMNOPQRSTUVWXYZabcdefghijklmnopqrstuvwxyz0123456789+/"

/-- Character for a 6-bit group. -/
def b64Char (n : Nat) : Char := b64Alphabet.getD n 'A'

/-- Index of a character in the base64 alphabet (`none` also for `=`). -/
def b64Index (c : Char) : Option Nat := b64Alphabet.findIdx? (fun d => d = c)

/-- `base64.StdEncoding.EncodeToString` on a byte list. -/
def b64Encode : List Nat → Str
  | a :: b :: c :: rest =>
    b64Char (a / 4 % 64) :: b64Char ((a % 4) * 16 + b / 16 % 16) ::
      b64Char ((b % 16) * 4 + c / 64 % 4) :: b64Char (c % 64) :: b64Encode rest
  | [a, b] => [b64Char (a / 4 % 64), b64Char ((a % 4) * 16 + b / 16 % 16),
      b64Char ((b % 16) * 4), '=']
  | [a] => [b64Char (a / 4 % 64), b64Char ((a % 4) * 16), '=', '=']
  | [] => []

/-- Decode one full quad of base64 characters. -/
def b64DecQuad (c1 c2 c3 c4 : Char) : Option (List Nat) :=
  match b64Index c1, b64Index c2, b64Index c3, b64Index c4 with
  | some i1, some i2, some i3, some i4 =>
    some [i1 * 4 + i2 / 16, (i2 % 16) * 16 + i3 / 4, (i3 % 4) * 64 + i4]
  | _, _, _, _ => none

/-- `base64.StdEncoding.DecodeString`: quads, with `=`/`==` padding only in
the final quad; any other misplaced character fails. -/
def b64Decode : Str → Option (List Nat)
  | [] => some []
  | c1 :: c2 :: c3 :: c4 :: rest =>
    if rest = [] then
      if c4 = '=' then
        if c3 = '=' then
          match b64Index c1, b64Index c2 with
          | some i1, some i2 => some [i1 * 4 + i2 / 16]
          | _, _ => none
        else
          match b64Index c1, b64Index c2, b64Index c3 with
          | some i1, some i2, some i3 => some [i1 * 4 + i2 / 16, (i2 % 16) * 16 + i3 / 4]
          | _, _, _ => none
      else b64DecQuad c1 c2 c3 c4
    else
      match b64DecQuad c1 c2 c3 c4, b64Decode rest with
      | some bs, some rs => some (bs ++ rs)
      | _, _ => none
  | _ => none

/-- Split a byte list at the first occurrence of a byte (`strings.Cut`),
returning the parts and whether the byte occurred. -/
def cutByte (sep : Nat) : List Nat → List Nat × List Nat × Bool
  | [] => ([], [], false)
  | b :: bs =>
    if b = sep then ([], bs, true)
    else
      let r := cutByte sep bs
      (b :: r.1, r.2.1, r.2.2)

/-! ### The argument bag and prepareBody -/

/-- `RequestArguments` (request.go), restricted to the fields the
construction pipeline reads.  `none` models a nil map / nil slice / nil
interface.  `boundary` feeds the multipart writer's randomly generated
boundary.  `Client`, `Timeout` and `RedirectLimit` are consumed by
`sendRequest` before `prepareRequest`; only the client's jar is kept. -/
structure RequestArguments where
  client : GoClient
  headers : Option (List (Str × Str))
  body : Option GoBody
  params : List (Str × Str)
  objectParam : Option Values
  auth : Option (List (List Nat))
  cookies : Option (List (Str × Str))
  cookieJar : Option Jar
  json : Option GoJson
  data : Option (List (Str × Str))
  files : Option (List FileField)
  boundary : Str

/-- Outcome of `prepareBody`: a Go panic (writing the inferred Content-Type
into a nil `Headers` map), or the updated header map together with the body
and the error value the function returns. -/
inductive BodyOutcome where
  | panicNilMap
  | ok (headers : Option (List (Str × Str))) (body : Option GoBody) (err : Option Str)
  deriving DecidableEq

/-- Write one key into the argument bag's header map; a nil map panics
(Go: assignment to entry in nil map). -/
def hdrWrite (h : Option (List (Str × Str))) (k v : Str) :
    Option (List (Str × Str)) :=
  match h with
  | none => none
  | some m => some (mapSet m k v)

/-- `prepareBody` (request.go): explicit `Body` first (verbatim, no header
write), then `Json` (Content-Type written, then the body built), then
`Files` (body built, "Content-type" written even when the build failed),
then `Data`, else no body and no header write. -/
def prepareBody (args : RequestArguments) : BodyOutcome :=
  match args.body with
  | some b => .ok args.headers (some b) none
  | none =>
    match args.json with
    | some j =>
      match args.headers with
      | none => .panicNilMap
      | some m =>
        match prepareJsonBody j with
        | .ok b => .ok (some (mapSet m (str "Content-Type") defaultJsonType)) (some b) none
        | .error e => .ok (some (mapSet m (str "Content-Type") defaultJsonType)) none (some e)
    | none =>
      match args.files with
      | some fs =>
        match args.headers with
        | none => .panicNilMap
        | some m =>
          let r := prepareFilesBody fs (args.data.getD []) args.boundary
          .ok (some (mapSet m (str "Content-type") r.contentType)) r.body
            (if r.err then some (str "prepareFilesBody error") else none)
      | none =>
        match args.data with
        | some d =>
          match args.headers with
          | none => .panicNilMap
          | some m =>
            .ok (some (mapSet m (str "Content-Type") defaultContentType))
              (some (prepareDataBody d)) none
        | none => .ok args.headers none none

/-! ### Transport-level request construction (http.NewRequest) -/

/-- The assembled `http.Request` as the pipeline shapes it: the parsed URL,
the canonical-keyed header map, and the body. -/
structure GoRequest where
  url : GoURL
  header : List (Str × Str)
  body : Option GoBody
  deriving DecidableEq, Repr

/-- `http.validMethod` composed with `NewRequest`'s defaulting of an empty
method to GET: a method is accepted iff (after defaulting) every character
is a token character. -/
def validMethod (m : Str) : Bool :=
  let m := if m = [] then str "GET" else m
  m ≠ [] && m.all isTokenChar

/-- `http.NewRequest`: reject an invalid method, parse the URL, build the
request with an empty header map. -/
def httpNewRequest (method urlStr : Str) (body : Option GoBody) :
    Except Str GoRequest :=
  if !validMethod method then .error (str "invalid method")
  else
    match parseGoURLE urlStr with
    | none => .error (str "invalid URL")
    | some u => .ok ⟨u, [], body⟩

/-- `http.Request.SetBasicAuth`: one `Set` of the Authorization header with
the base64 of `user:pass` (user and pass as byte strings). -/
def setBasicAuth (req : GoRequest) (user pass : List Nat) : GoRequest :=
  let v := str "Basic " ++ b64Encode (user ++ 58 :: pass)
  { req with header := headerSet req.header (str "Authorization") v }

/-- `http.Request.BasicAuth`: read the Authorization header, strip the
`Basic ` prefix, base64-decode, and cut at the first colon byte. -/
def basicAuthOf (req : GoRequest) : Option (List Nat × List Nat) :=
  match headerGet req.header (str "Authorization") with
  | none => none
  | some v =>
    if (str "Basic ").isPrefixOf v then
      match b64Decode (v.drop 6) with
      | none => none
      | some bs =>
        let c := cutByte 58 bs
        if c.2.2 then some (c.1, c.2.1) else none
    else none

/-! ### Cookie injection (prepareCookies) -/

/-- `prepareCookies` (request.go), with mutation modelled by returning the
updated client: an explicit jar is assigned into the client's `Jar` field;
otherwise a cookie map appends its cookies to the jar's cookies for the
request URL and writes them back (panicking on a nil jar); otherwise
nothing happens. -/
def prepareCookies (args : RequestArguments) (req : GoRequest)
    (client : GoClient) : Except Unit GoClient :=
  match args.cookieJar with
  | some jar => .ok { client with jar := some jar }
  | none =>
    match args.cookies with
    | none => .ok client
    | some cm =>
      match client.jar with
      | none => .error ()
      | some j =>
        let u := urlString req.url
        let cs := j.cookiesFor u ++ cookiesFromMap cm
        .ok { client with jar := some (j.setCookies u cs) }

/-! ### Request assembly (prepareRequest) -/

/-- The URL-resolution switch at the top of `prepareRequest`: a non-empty
`Params` map rewrites via `prepareURL`, else a non-nil `ObjectParam`
rewrites via `prepareURLWithStruct`, else the URL passes through. -/
def resolveURL (urlStr : Str) (args : RequestArguments) : Except Str Str :=
  if args.params.length ≠ 0 then prepareURL urlStr args.params
  else
    match args.objectParam with
    | some ps => prepareURLWithStruct urlStr ps
    | none => .ok urlStr

/-- The Go panics `prepareRequest` can run into. -/
inductive PanicKind where
  | indexOutOfRange
  | nilPointer
  | nilMapWrite
  deriving DecidableEq, Repr

/-- Outcome of `prepareRequest`: a panic, an error return (the request is
nil), or the assembled request together with the (possibly mutated)
client. -/
inductive ReqOutcome where
  | panic (k : PanicKind)
  | err (e : Str)
  | ok (req : GoRequest) (client : GoClient)
  deriving DecidableEq

/-- Apply every header-map entry onto the request via `Header.Set`
(the `range` loop; Go's random map iteration is modelled by list order). -/
def applyHeaders (req : GoRequest) (hm : List (Str × Str)) : GoRequest :=
  { req with header := hm.foldl (fun h kv => headerSet h kv.1 kv.2) req.header }

/-- Auth stage of `prepareRequest`: `args.Auth[0]`/`[1]` are evaluated
first (index panic on a short slice), then `SetBasicAuth` dereferences the
request (nil-pointer panic when `http.NewRequest` failed). -/
def authStage (auth : Option (List (List Nat))) (reqE : Except Str GoRequest) :
    Except PanicKind (Except Str GoRequest) :=
  match auth with
  | none => .ok reqE
  | some l =>
    if l.length < 2 then .error .indexOutOfRange
    else
      match reqE with
      | .error _ => .error .nilPointer
      | .ok req => .ok (.ok (setBasicAuth req (l.getD 0 []) (l.getD 1 [])))

/-- Header stage of `prepareRequest`: an empty (or nil) map loops zero
times; a non-empty map dereferences the request (nil-pointer panic when
construction failed). -/
def headerStage (headers : Option (List (Str × Str)))
    (reqE : Except Str GoRequest) : Except PanicKind (Except Str GoRequest) :=
  match headers with
  | none => .ok reqE
  | some hm =>
    if hm = [] then .ok reqE
    else
      match reqE with
      | .error _ => .error .nilPointer
      | .ok req => .ok (.ok (applyHeaders req hm))

/-- Cookie stage of `prepareRequest` when construction failed (`req` nil):
the cookie-map path dereferences `req.URL` and panics; the other paths do
not touch the request. -/
def cookieStageNilReq (args : RequestArguments) : Except PanicKind Unit :=
  match args.cookieJar with
  | some _ => .ok ()
  | none =>
    match args.cookies with
    | none => .ok ()
    | some _ => .error .nilPointer

/-- `prepareRequest` (request.go): resolve the URL, resolve the body
(propagating its error wrapped), construct the transport request, install
auth, apply the generic headers, run the cookie injector, and return the
request — or the error of `http.NewRequest`, checked only at the very end,
after stages that dereference the nil request. -/
def prepareRequest (method urlStr : Str) (args : RequestArguments) : ReqOutcome :=
  match resolveURL urlStr args with
  | .error e => .err e
  | .ok u =>
    match prepareBody args with
    | .panicNilMap => .panic .nilMapWrite
    | .ok hdrs body errB =>
      match errB with
      | some e => .err (str "prepareRequest error: " ++ e)
      | none =>
        match authStage args.auth (httpNewRequest method u body) with
        | .error pk => .panic pk
        | .ok afterAuth =>
          match headerStage hdrs afterAuth with
          | .error pk => .panic pk
          | .ok afterHeaders =>
            match afterHeaders with
            | .error e =>
              match cookieStageNilReq args with
              | .error pk => .panic pk
              | .ok _ => .err e
            | .ok req =>
              match prepareCookies args req args.client with
              | .error _ => .panic .nilPointer
              | .ok client => .ok req client

/-! ### Specification-side comparison definitions and concrete inputs -/

/-- Per-file close counts the (amended) resource contract predicts: every
file before the failure point is closed once; the file whose copy failed is
not closed; the file whose own `Close` failed was closed (once); every file
after the failure point is left unclosed; on success every file is closed
exactly once. -/
def expectedCloses : List FileField → List Nat
  | [] => []
  | f :: rest =>
    if f.readErr then 0 :: rest.map (fun _ => 0)
    else if f.closeErr then 1 :: rest.map (fun _ => 0)
    else 1 :: expectedCloses rest

/-- The value of the last entry of the list whose canonical key is `ck`
(the write that survives the `Header.Set` loop). -/
def lastWriteFor (ck : Str) : List (Str × Str) → Option Str
  | [] => none
  | kv :: r =>
    match lastWriteFor ck r with
    | some v => some v
    | none => if canonicalKey kv.1 = ck then some kv.2 else none

/-- Baseline argument bag: non-nil client without a jar, everything else
absent, an arbitrary multipart boundary. -/
def exArgs : RequestArguments :=
  { client := ⟨none⟩, headers := none, body := none, params := [],
    objectParam := none, auth := none, cookies := none, cookieJar := none,
    json := none, data := none, files := none, boundary := str "bnd" }

/-- Argument bag for the Content-Type experiment: an explicit generic
`Content-Type` header together with a json body. -/
def ctArgs : RequestArguments :=
  { exArgs with headers := some [(str "Content-Type", str "text/plain")],
                json := some (.str (str "\x7b\x7d")) }

/-- Argument bag exercising the unchecked `http.NewRequest` error: a
non-empty generic header map and an invalid method. -/
def badMethodArgs : RequestArguments :=
  { exArgs with headers := some [(str "X-A", str "b")] }

/-- Argument bag supplying every body option at once. -/
def allBodiesArgs : RequestArguments :=
  { exArgs with headers := some [],
                body := some (.reader 0),
                json := some (.str (str "j")),
                data := some [(str "a", str "1")],
                files := some [⟨str "f", str "n", [1], false, false⟩] }

/-- A jar holding one cookie for one URL. -/
def exJar : Jar := ⟨[(str "http://e.com/x", [⟨str "k", str "v"⟩])]⟩

/-- A request for `http://e.com/x` (as `http.NewRequest` would parse it). -/
def exReq : GoRequest := ⟨⟨str "http://e.com/x", [], [], false⟩, [], none⟩

/-- Argument bag with an explicit body and a one-element `Auth` slice. -/
def shortAuthArgs : RequestArguments :=
  { exArgs with body := some (.reader 0), auth := some [[97]] }

/-- Argument bag supplying an explicit per-call cookie jar. -/
def jarArgs : RequestArguments := { exArgs with cookieJar := some exJar }

/-- Argument bag supplying both a non-empty `Params` map and an
`ObjectParam`. -/
def paramsObjArgs : RequestArguments :=
  { exArgs with params := [(str "a", str "1")],
                objectParam := some [(str "z", [str "9"])] }

/-- The unescaped text of one `k=v` query pair. -/
def pairStr (kv : Str × Str) : Str := kv.1 ++ '=' :: kv.2

/-! ## Theorems -/

theorem filesLoop_spec (files : List FileField) : ∀ acc,
    (filesLoop files acc).2.2 = expectedCloses files
  ∧ (filesLoop files acc).2.1 = files.any (fun f => f.readErr || f.closeErr)
  ∧ ((filesLoop files acc).1 = none ↔
      files.any (fun f => f.readErr || f.closeErr) = true) := by
  induction files with
  | nil => intro acc; simp [filesLoop, expectedCloses]
  | cons f rest ih =>
    intro acc
    by_cases hr : f.readErr
    · simp [filesLoop, expectedCloses, hr]
    · by_cases hc : f.closeErr
      · simp [filesLoop, expectedCloses, hr, hc]
      · have h := ih (acc ++ [(f.fieldName, f.fileName, f.content)])
        simp [filesLoop, expectedCloses, hr, hc, h.1, h.2.1, h.2.2]

/-- C5 (counterexample): for the file list whose single file's stream read
fails, `prepareFilesBody` reports an error but the stream is closed zero
times — refuting "each file's content stream is closed exactly once, both
when encoding succeeds and on partial failure". -/
theorem prepareFilesBody_close_cex :
    (prepareFilesBody [⟨str "n", str "f", [1, 2], true, false⟩] [] (str "b")).err = true
  ∧ (prepareFilesBody [⟨str "n", str "f", [1, 2], true, false⟩] [] (str "b")).closes
      = [0] := by
  constructor <;> rfl

/-- C5 (amended): on success every file stream is closed exactly once; on a
failure partway, the streams fully processed before the failure are closed
once, a stream whose own `Close` failed was closed once, and the stream
whose copy failed together with all later streams are not closed
(`expectedCloses`); encoding fails exactly when some stream read or close
fails. -/
theorem prepareFilesBody_close_accounting (files : List FileField)
    (data : List (Str × Str)) (boundary : Str) :
    (prepareFilesBody files data boundary).closes = expectedCloses files
  ∧ (prepareFilesBody files data boundary).err
      = files.any (fun f => f.readErr || f.closeErr) := by
  have h := filesLoop_spec files []
  cases hm : (filesLoop files []).1 with
  | none =>
    have he : files.any (fun f => f.readErr || f.closeErr) = true := h.2.2.mp hm
    simp [prepareFilesBody, hm, h.1, he]
  | some parts =>
    have he : files.any (fun f => f.readErr || f.closeErr) = false := by
      cases hae : files.any (fun f => f.readErr || f.closeErr) with
      | false => rfl
      | true => rw [h.2.2.mpr hae] at hm; exact Option.noConfusion hm
    refine ⟨?_, ?_⟩
    · simp only [prepareFilesBody, hm]; exact h.1
    · simp only [prepareFilesBody, hm]; exact he.symm

/-- C1: body resolution is strictly first-match-wins in the order explicit
body (verbatim, no Content-Type write), json, files, data, none; in each
case the header map receives exactly the winning strategy's Content-Type
write and nothing from the losing strategies. -/
theorem prepareBody_first_match (args : RequestArguments)
    (m : List (Str × Str)) (h : args.headers = some m) :
    (∀ b, args.body = some b → prepareBody args = .ok (some m) (some b) none)
  ∧ (args.body = none → ∀ j, args.json = some j →
      prepareBody args
        = .ok (some (mapSet m (str "Content-Type") defaultJsonType))
            (prepareJsonBody j).toOption
            (match prepareJsonBody j with | .ok _ => none | .error e => some e))
  ∧ (args.body = none → args.json = none → ∀ fs, args.files = some fs →
      prepareBody args
        = .ok (some (mapSet m (str "Content-type")
              (prepareFilesBody fs (args.data.getD []) args.boundary).contentType))
            (prepareFilesBody fs (args.data.getD []) args.boundary).body
            (if (prepareFilesBody fs (args.data.getD []) args.boundary).err
             then some (str "prepareFilesBody error") else none))
  ∧ (args.body = none → args.json = none → args.files = none →
      ∀ d, args.data = some d →
      prepareBody args
        = .ok (some (mapSet m (str "Content-Type") defaultContentType))
            (some (prepareDataBody d)) none)
  ∧ (args.body = none → args.json = none → args.files = none → args.data = none →
      prepareBody args = .ok (some m) none none) := by
  refine ⟨?_, ?_, ?_, ?_, ?_⟩
  · intro b hb; simp [prepareBody, hb, h]
  · intro hb j hj
    cases hpj : prepareJsonBody j with
    | ok bj => simp [prepareBody, hb, hj, h, hpj, Except.toOption]
    | error e => simp [prepareBody, hb, hj, h, hpj, Except.toOption]
  · intro hb hj fs hf; simp [prepareBody, hb, hj, hf, h]
  · intro hb hj hf d hd; simp [prepareBody, hb, hj, hf, hd, h]
  · intro hb hj hf hd; simp [prepareBody, hb, hj, hf, hd, h]

/-- C1 (witness): with every body option supplied at once, the explicit
reader wins and no Content-Type is written. -/
theorem prepareBody_first_match_witness :
    prepareBody allBodiesArgs = .ok (some []) (some (.reader 0)) none :=
  (prepareBody_first_match allBodiesArgs [] rfl).1 (.reader 0) rfl

/-- C4: the claim's intended propagation fails in the code — for the
invalid method `BAD METHOD` with a non-empty generic header map,
`http.NewRequest` returns an error that is checked only after
`req.Header.Set` dereferences the nil request, so `prepareRequest` panics
instead of returning `(nil, error)`. -/
theorem prepareRequest_bad_method_panics :
    prepareRequest (str "BAD METHOD") (str "http://e.com/x") badMethodArgs
      = .panic .nilPointer := by
  rfl

/-- C10: an argument bag whose `Auth` is a non-nil slice with fewer than
two elements makes `prepareRequest` panic with an index-out-of-range (the
bag must reach the auth stage: no URL rewrite and an explicit body). -/
theorem prepareRequest_short_auth_panics (method urlStr : Str)
    (args : RequestArguments) (bd : GoBody) (l : List (List Nat))
    (hp : args.params = []) (ho : args.objectParam = none)
    (hb : args.body = some bd) (ha : args.auth = some l)
    (hl : l.length < 2) :
    prepareRequest method urlStr args = .panic .indexOutOfRange := by
  simp [prepareRequest, resolveURL, hp, ho, prepareBody, hb, ha, authStage, hl]

/-- C10 (witness): a one-element `Auth` slice panics. -/
theorem prepareRequest_short_auth_panics_witness :
    prepareRequest (str "GET") (str "http://e.com/x") shortAuthArgs
      = .panic .indexOutOfRange :=
  prepareRequest_short_auth_panics (str "GET") (str "http://e.com/x")
    shortAuthArgs (.reader 0) [[97]] rfl rfl rfl rfl (by decide)

/-- C6 (counterexample): supplying an explicit cookie jar assigns it into
the client's `Jar` field — after the call the client's jar differs from
what it was, refuting "the session-wide client's jar field is not
mutated". -/
theorem prepareCookies_persists_cex :
    (match prepareCookies jarArgs exReq ⟨some ⟨[]⟩⟩ with
     | .ok c => c.jar
     | .error _ => none) ≠ (⟨some ⟨[]⟩⟩ : GoClient).jar := by
  decide

/-- C6 (amended): an explicit jar is assigned into the client's `Jar`
field, replacing it for this call and persistently (the mutation outlives
the call); otherwise a supplied cookie map appends its cookies to the
jar's cookies for the request URL and writes the combined set back; with
neither, the client is untouched. -/
theorem prepareCookies_spec (args : RequestArguments) (req : GoRequest)
    (client : GoClient) :
    (∀ j, args.cookieJar = some j →
      prepareCookies args req client = .ok { client with jar := some j })
  ∧ (args.cookieJar = none → ∀ cm jr, args.cookies = some cm →
      client.jar = some jr →
      prepareCookies args req client
        = .ok { client with jar := some (jr.setCookies (urlString req.url)
            (jr.cookiesFor (urlString req.url) ++ cookiesFromMap cm)) })
  ∧ (args.cookieJar = none → args.cookies = none →
      prepareCookies args req client = .ok client) := by
  refine ⟨?_, ?_, ?_⟩
  · intro j hj; simp [prepareCookies, hj]
  · intro hj cm jr hcm hjr; simp [prepareCookies, hj, hcm, hjr]
  · intro hj hcm; simp [prepareCookies, hj, hcm]

/-- C6 (witness): the explicit jar replaces an empty client jar. -/
theorem prepareCookies_spec_witness :
    prepareCookies jarArgs exReq ⟨some ⟨[]⟩⟩ = .ok ⟨some exJar⟩ :=
  (prepareCookies_spec jarArgs exReq ⟨some ⟨[]⟩⟩).1 exJar rfl

/-- C7: with a non-empty `Params` map and a non-nil `ObjectParam`, the URL
stage runs `prepareURL` on `Params` only, and the whole construction
behaves as if `ObjectParam` were absent. -/
theorem prepareRequest_params_precedence (method urlStr : Str)
    (args : RequestArguments) (ps : Values)
    (h1 : args.params ≠ []) (h2 : args.objectParam = some ps) :
    resolveURL urlStr args = prepareURL urlStr args.params
  ∧ prepareRequest method urlStr args
      = prepareRequest method urlStr { args with objectParam := none } := by
  have hlen : args.params.length ≠ 0 := by simpa using h1
  have e1 : resolveURL urlStr args = prepareURL urlStr args.params := by
    simp [resolveURL, hlen]
  refine ⟨e1, ?_⟩
  have e2 : resolveURL urlStr { args with objectParam := none }
      = prepareURL urlStr args.params := by
    simp [resolveURL, hlen]
  simp only [prepareRequest, e1, e2]
  rfl

/-- C7 (witness): concrete bag with both `Params` and `ObjectParam`. -/
theorem prepareRequest_params_precedence_witness :
    resolveURL (str "http://e.com/x") paramsObjArgs
        = prepareURL (str "http://e.com/x") paramsObjArgs.params
  ∧ prepareRequest (str "GET") (str "http://e.com/x") paramsObjArgs
      = prepareRequest (str "GET") (str "http://e.com/x")
          { paramsObjArgs with objectParam := none } :=
  prepareRequest_params_precedence (str "GET") (str "http://e.com/x")
    paramsObjArgs [(str "z", [str "9"])] (by decide) rfl

/-! ### Base64 and Basic auth lemmas (C9) -/

theorem b64Index_b64Char : ∀ n, n < 64 → b64Index (b64Char n) = some n := by
  decide

theorem b64Char_ne_pad : ∀ n, n < 64 → b64Char n ≠ '=' := by
  decide

theorem b64Encode_eq_nil : ∀ (l : List Nat), b64Encode l = [] ↔ l = [] := by
  intro l
  match l with
  | [] => simp [b64Encode]
  | [a] => simp [b64Encode]
  | [a, b] => simp [b64Encode]
  | a :: b :: c :: r => simp [b64Encode]

theorem b64_roundtrip : ∀ (bs : List Nat), (∀ b ∈ bs, b < 256) →
    b64Decode (b64Encode bs) = some bs := by
  intro bs h
  match bs with
  | [] => rfl
  | [a] =>
    have ha : a < 256 := h a (by simp)
    have i1 := b64Index_b64Char (a / 4 % 64) (by omega)
    have i2 := b64Index_b64Char (a % 4 * 16) (by omega)
    simp [b64Encode, b64Decode, i1, i2]
    omega
  | [a, b] =>
    have ha : a < 256 := h a (by simp)
    have hb : b < 256 := h b (by simp)
    have i1 := b64Index_b64Char (a / 4 % 64) (by omega)
    have i2 := b64Index_b64Char (a % 4 * 16 + b / 16 % 16) (by omega)
    have i3 := b64Index_b64Char (b % 16 * 4) (by omega)
    have hne := b64Char_ne_pad (b % 16 * 4) (by omega)
    simp [b64Encode, b64Decode, hne, i1, i2, i3]
    omega
  | a :: b :: c :: rest =>
    have ha : a < 256 := h a (by simp)
    have hb : b < 256 := h b (by simp)
    have hc : c < 256 := h c (by simp)
    have hr : ∀ x ∈ rest, x < 256 := fun x hx => h x (by simp [hx])
    have i1 := b64Index_b64Char (a / 4 % 64) (by omega)
    have i2 := b64Index_b64Char (a % 4 * 16 + b / 16 % 16) (by omega)
    have i3 := b64Index_b64Char (b % 16 * 4 + c / 64 % 4) (by omega)
    have i4 := b64Index_b64Char (c % 64) (by omega)
    have hq : b64DecQuad (b64Char (a / 4 % 64)) (b64Char (a % 4 * 16 + b / 16 % 16))
        (b64Char (b % 16 * 4 + c / 64 % 4)) (b64Char (c % 64)) = some [a, b, c] := by
      simp only [b64DecQuad, i1, i2, i3, i4, Option.some.injEq, List.cons.injEq, and_true]
      refine ⟨by omega, by omega, by omega⟩
    by_cases hrest : b64Encode rest = []
    · have hre : rest = [] := (b64Encode_eq_nil rest).mp hrest
      have hne4 := b64Char_ne_pad (c % 64) (by omega)
      subst hre
      simp [b64Encode, b64Decode, hne4, hq]
    · have ih := b64_roundtrip rest hr
      simp [b64Encode, b64Decode, hrest, hq, ih]

theorem lookup_mapSet_self (m : List (Str × Str)) (k v : Str) :
    lookupStr (mapSet m k v) k = some v := by
  induction m with
  | nil => simp [mapSet, lookupStr]
  | cons kv r ih =>
    by_cases hk : kv.1 = k
    · simp [mapSet, lookupStr, hk]
    · simp [mapSet, lookupStr, hk, ih]

theorem isPrefixOf_append (p t : List Char) : p.isPrefixOf (p ++ t) = true := by
  induction p with
  | nil => simp [List.isPrefixOf]
  | cons a as ih => simp [List.isPrefixOf, ih]

theorem cutByte_no_sep (sep : Nat) : ∀ (l : List Nat), sep ∉ l →
    cutByte sep l = (l, [], false) := by
  intro l h
  induction l with
  | nil => rfl
  | cons b bs ih =>
    have hb : b ≠ sep := fun he => h (he ▸ List.mem_cons_self b bs)
    have ht : sep ∉ bs := fun hm => h (List.mem_cons_of_mem b hm)
    simp [cutByte, hb, ih ht]

theorem cutByte_split (sep : Nat) : ∀ (u p : List Nat), sep ∉ u →
    cutByte sep (u ++ sep :: p) = (u, p, true) := by
  intro u p h
  induction u with
  | nil => simp [cutByte]
  | cons b bs ih =>
    have hb : b ≠ sep := fun he => h (he ▸ List.mem_cons_self b bs)
    have ht : sep ∉ bs := fun hm => h (List.mem_cons_of_mem b hm)
    simp [cutByte, hb, ih ht]

/-- C9 (counterexample): for the username bytes `a:b` and password bytes
`c`, installing Basic auth and decoding yields `(a, b:c)` — the original
pair is not recovered when the username contains a colon. -/
theorem basicAuth_colon_cex :
    basicAuthOf (setBasicAuth exReq [97, 58, 98] [99])
      = some ([97], [98, 58, 99])
  ∧ (some (([97], [98, 58, 99]) : List Nat × List Nat)
      ≠ some (([97, 58, 98], [99]) : List Nat × List Nat)) := by
  exact ⟨rfl, by decide⟩

/-- C9 (amended): for every username/password byte-string pair in which the
username contains no colon (the password may), installing Basic auth and
decoding the Authorization header recovers exactly the original pair. -/
theorem basicAuth_roundtrip (req : GoRequest) (user pass : List Nat)
    (hu : ∀ b ∈ user, b < 256) (hp : ∀ b ∈ pass, b < 256)
    (hcolon : 58 ∉ user) :
    basicAuthOf (setBasicAuth req user pass) = some (user, pass) := by
  have hbytes : ∀ b ∈ user ++ 58 :: pass, b < 256 := by
    intro b hb
    rcases List.mem_append.mp hb with h1 | h2
    · exact hu b h1
    · rcases List.mem_cons.mp h2 with h3 | h4
      · omega
      · exact hp b h4
  have hdec := b64_roundtrip (user ++ 58 :: pass) hbytes
  have hcut := cutByte_split 58 user pass hcolon
  have hdrop : List.drop 6 (str "Basic " ++ b64Encode (user ++ 58 :: pass))
      = b64Encode (user ++ 58 :: pass) := by
    have h6 : (str "Basic ").length = 6 := rfl
    rw [← h6, List.drop_left]
  simp only [basicAuthOf, setBasicAuth, headerGet, headerSet, lookup_mapSet_self]
  simp [isPrefixOf_append, hdrop, hdec, hcut]

/-- C9 (witness): username `A`, password `o:s` (colon in the password)
round-trips exactly. -/
theorem basicAuth_roundtrip_witness :
    basicAuthOf (setBasicAuth exReq [65] [111, 58, 115])
      = some ([65], [111, 58, 115]) :=
  basicAuth_roundtrip exReq [65] [111, 58, 115] (by decide) (by decide) (by decide)

/-! ### Header-loop lemmas (C3) -/

theorem lookup_mapSet_ne (m : List (Str × Str)) (k0 k v : Str) (h : k0 ≠ k) :
    lookupStr (mapSet m k0 v) k = lookupStr m k := by
  induction m with
  | nil => simp [mapSet, lookupStr, h]
  | cons kv r ih =>
    by_cases hk : kv.1 = k0
    · simp [mapSet, lookupStr, hk, h]
    · simp [mapSet, lookupStr, hk, ih]

theorem mapSet_ne_nil (m : List (Str × Str)) (k v : Str) : mapSet m k v ≠ [] := by
  cases m with
  | nil => simp [mapSet]
  | cons kv r =>
    by_cases hk : kv.1 = k <;> simp [mapSet, hk]

theorem lastWriteFor_none (ck : Str) (entries : List (Str × Str))
    (h : ∀ kv ∈ entries, canonicalKey kv.1 ≠ ck) : lastWriteFor ck entries = none := by
  induction entries with
  | nil => rfl
  | cons kv r ih =>
    have hr := ih (fun x hx => h x (List.mem_cons_of_mem kv hx))
    have hk := h kv (List.mem_cons_self kv r)
    simp [lastWriteFor, hr, hk]

theorem foldSet_get (entries : List (Str × Str)) : ∀ (h0 : List (Str × Str)) (ck : Str),
    lookupStr (entries.foldl (fun h kv => headerSet h kv.1 kv.2) h0) ck
      = (match lastWriteFor ck entries with
         | some v => some v
         | none => lookupStr h0 ck) := by
  induction entries with
  | nil => intro h0 ck; rfl
  | cons kv r ih =>
    intro h0 ck
    rw [List.foldl_cons, ih]
    cases hl : lastWriteFor ck r with
    | some v => simp [lastWriteFor, hl]
    | none =>
      by_cases hc : canonicalKey kv.1 = ck
      · simp [lastWriteFor, hl, hc, headerSet, hc ▸ lookup_mapSet_self h0 (canonicalKey kv.1) kv.2]
      · simp [lastWriteFor, hl, hc, headerSet, lookup_mapSet_ne h0 (canonicalKey kv.1) ck kv.2 hc]

theorem lastWriteFor_mapSet_ct (m : List (Str × Str)) (ck v : Str)
    (hck : canonicalKey ck = ck)
    (hno : ∀ kv ∈ m, canonicalKey kv.1 = ck → kv.1 = ck)
    (hnd : (m.map Prod.fst).Nodup) :
    lastWriteFor ck (mapSet m ck v) = some v := by
  induction m with
  | nil => simp [mapSet, lastWriteFor, hck]
  | cons kv r ih =>
    have hnd2 : kv.1 ∉ r.map Prod.fst ∧ (r.map Prod.fst).Nodup := by
      rw [List.map_cons, List.nodup_cons] at hnd; exact hnd
    by_cases hk : kv.1 = ck
    · have hnotin : ck ∉ r.map Prod.fst := hk ▸ hnd2.1
      have hnone : lastWriteFor ck r = none := by
        refine lastWriteFor_none ck r (fun x hx hcx => ?_)
        have hx1 : x.1 = ck := hno x (List.mem_cons_of_mem kv hx) hcx
        exact hnotin (hx1 ▸ List.mem_map_of_mem Prod.fst hx)
      simp [mapSet, hk, lastWriteFor, hnone, hck]
    · have ihr := ih (fun x hx => hno x (List.mem_cons_of_mem kv hx)) hnd2.2
      simp [mapSet, hk, lastWriteFor, ihr]

/-- C3 (counterexample): for a bag supplying both a generic
`Content-Type: text/plain` header and a json body, the assembled request
carries `application/json`, not the explicitly supplied value — refuting
"the explicitly supplied Content-Type value ends up on the assembled
request". -/
theorem prepareRequest_ct_cex :
    (match prepareRequest (str "POST") (str "http://e.com/x") ctArgs with
     | .ok req _ => headerGet req.header (str "Content-Type")
     | _ => none) = some (str "application/json")
  ∧ str "application/json" ≠ str "text/plain" := by
  exact ⟨rfl, by decide⟩

/-- C3 (amended): for the json and data strategies the inferred
Content-Type is written into the generic header map itself, overwriting an
explicitly supplied `Content-Type` entry before the headers are applied,
so the inferred value (not the explicit one) ends up on the assembled
request, with a single surviving Content-Type write.  (For the files
strategy the inferred type is written under the differently-cased key
`Content-type`, so two map entries write to the canonical header and the
survivor depends on Go's map iteration order.) -/
theorem prepareRequest_ct_override (method urlStr : Str)
    (args : RequestArguments) (m : List (Str × Str)) (u : GoURL) (ct0 : Str)
    (hm : args.headers = some m)
    (hct : lookupStr m (str "Content-Type") = some ct0)
    (hno : ∀ kv ∈ m, canonicalKey kv.1 = str "Content-Type" →
      kv.1 = str "Content-Type")
    (hnd : (m.map Prod.fst).Nodup)
    (hb : args.body = none) (ha : args.auth = none)
    (hp : args.params = []) (ho : args.objectParam = none)
    (hcj : args.cookieJar = none) (hck : args.cookies = none)
    (hvm : validMethod method = true) (hu : parseGoURLE urlStr = some u) :
    (∀ j bj, args.json = some j → prepareJsonBody j = .ok bj →
      prepareRequest method urlStr args
        = .ok (applyHeaders ⟨u, [], some bj⟩
            (mapSet m (str "Content-Type") defaultJsonType)) args.client
      ∧ headerGet (applyHeaders ⟨u, [], some bj⟩
            (mapSet m (str "Content-Type") defaultJsonType)).header
          (str "Content-Type") = some defaultJsonType)
  ∧ (args.json = none → args.files = none → ∀ d, args.data = some d →
      prepareRequest method urlStr args
        = .ok (applyHeaders ⟨u, [], some (prepareDataBody d)⟩
            (mapSet m (str "Content-Type") defaultContentType)) args.client
      ∧ headerGet (applyHeaders ⟨u, [], some (prepareDataBody d)⟩
            (mapSet m (str "Content-Type") defaultContentType)).header
          (str "Content-Type") = some defaultContentType) := by
  have hckey : canonicalKey (str "Content-Type") = str "Content-Type" := by decide
  have hgetct : ∀ (bdy : Option GoBody) (v : Str),
      headerGet (applyHeaders ⟨u, [], bdy⟩ (mapSet m (str "Content-Type") v)).header
        (str "Content-Type") = some v := by
    intro bdy v
    show lookupStr ((mapSet m (str "Content-Type") v).foldl
      (fun h kv => headerSet h kv.1 kv.2) []) (canonicalKey (str "Content-Type")) = some v
    rw [hckey, foldSet_get, lastWriteFor_mapSet_ct m (str "Content-Type") v hckey hno hnd]
  constructor
  · intro j bj hj hpj
    have hne := mapSet_ne_nil m (str "Content-Type") defaultJsonType
    refine ⟨?_, hgetct (some bj) defaultJsonType⟩
    simp [prepareRequest, resolveURL, hp, ho, prepareBody, hb, hj, hm, hpj,
      httpNewRequest, hvm, hu, authStage, ha, headerStage, hne,
      prepareCookies, hcj, hck]
  · intro hj hf d hd
    have hne := mapSet_ne_nil m (str "Content-Type") defaultContentType
    refine ⟨?_, hgetct (some (prepareDataBody d)) defaultContentType⟩
    simp [prepareRequest, resolveURL, hp, ho, prepareBody, hb, hj, hf, hd, hm,
      httpNewRequest, hvm, hu, authStage, ha, headerStage, hne,
      prepareCookies, hcj, hck]

/-- C3 (witness): the concrete bag with `Content-Type: text/plain` and a
json body assembles with `application/json`. -/
theorem prepareRequest_ct_override_witness :
    prepareRequest (str "POST") (str "http://e.com/x") ctArgs
      = .ok (applyHeaders ⟨⟨str "http://e.com/x", [], [], false⟩, [],
          some (.strReader (str "\x7b\x7d"))⟩
          (mapSet [(str "Content-Type", str "text/plain")]
            (str "Content-Type") defaultJsonType)) ctArgs.client
  ∧ headerGet (applyHeaders ⟨⟨str "http://e.com/x", [], [], false⟩, [],
        some (.strReader (str "\x7b\x7d"))⟩
        (mapSet [(str "Content-Type", str "text/plain")]
          (str "Content-Type") defaultJsonType)).header
      (str "Content-Type") = some defaultJsonType :=
  (prepareRequest_ct_override (str "POST") (str "http://e.com/x") ctArgs
    [(str "Content-Type", str "text/plain")] ⟨str "http://e.com/x", [], [], false⟩
    (str "text/plain") rfl rfl (by decide) (by decide) rfl rfl rfl rfl rfl rfl
    (by decide) rfl).1 (.str (str "\x7b\x7d")) (.strReader (str "\x7b\x7d")) rfl rfl

/-! ### Escaping and Values lemmas (C2, C8) -/

theorem safe_ne (c d : Char) (hd : isUnreservedChar d = false)
    (h : isUnreservedChar c = true) : c ≠ d := by
  intro he; rw [he, hd] at h; exact Bool.noConfusion h

theorem safe_mem (s : Str) (hs : safeStr s = true) (c : Char) (hc : c ∈ s) :
    isUnreservedChar c = true := by
  simp only [safeStr, List.all_eq_true] at hs
  exact hs c hc

theorem safe_not_mem (s : Str) (hs : safeStr s = true) (d : Char)
    (hd : isUnreservedChar d = false) : d ∉ s :=
  fun hm => safe_ne d d hd (safe_mem s hs d hm) rfl

theorem safe_not_control (c : Char) (h : isUnreservedChar c = true) :
    ¬ c.toNat < 32 := by
  intro hc
  have h1 : c ≠ '-' := by intro he; subst he; exact absurd hc (by decide)
  have h2 : c ≠ '_' := by intro he; subst he; exact absurd hc (by decide)
  have h3 : c ≠ '.' := by intro he; subst he; exact absurd hc (by decide)
  have h4 : c ≠ '~' := by intro he; subst he; exact absurd hc (by decide)
  simp only [isUnreservedChar, h1, h2, h3, h4, decide_False, Bool.or_false,
    Bool.or_eq_true, Bool.and_eq_true, decide_eq_true_eq] at h
  rcases h with ((h | h) | h) <;> omega

theorem safeStr_cons (c : Char) (cs : Str) (h : safeStr (c :: cs) = true) :
    isUnreservedChar c = true ∧ safeStr cs = true := by
  simpa [safeStr] using h

theorem escape_safe (s : Str) (hs : safeStr s = true) : queryEscape s = s := by
  induction s with
  | nil => rfl
  | cons c cs ih =>
    obtain ⟨hc, hcs⟩ := safeStr_cons c cs hs
    simp [queryEscape, hc, ih hcs]

theorem unescape_safe (s : Str) (hs : safeStr s = true) :
    queryUnescape s = some s := by
  induction s with
  | nil => rfl
  | cons c cs ih =>
    obtain ⟨hc, hcs⟩ := safeStr_cons c cs hs
    have h1 : c ≠ '%' := safe_ne c '%' (by decide) hc
    have h2 : c ≠ '+' := safe_ne c '+' (by decide) hc
    rcases cs with _ | ⟨a, _ | ⟨b, rest⟩⟩ <;>
      simp [queryUnescape, h1, h2, ih hcs]

theorem get_add_self (m : Values) (k v : Str) :
    (Values.add m k v).get k = m.get k ++ [v] := by
  induction m with
  | nil => simp [Values.add, Values.get]
  | cons kv r ih =>
    by_cases hk : kv.1 = k
    · simp [Values.add, Values.get, hk]
    · simp [Values.add, Values.get, hk, ih]

theorem get_add_ne (m : Values) (k0 k v : Str) (h : k0 ≠ k) :
    (Values.add m k0 v).get k = m.get k := by
  induction m with
  | nil => simp [Values.add, Values.get, h]
  | cons kv r ih =>
    by_cases hk : kv.1 = k0
    · simp [Values.add, Values.get, hk, h, hk ▸ h]
    · simp [Values.add, Values.get, hk, ih]

theorem get_set_self (m : Values) (k v : Str) :
    (Values.set m k v).get k = [v] := by
  induction m with
  | nil => simp [Values.set, Values.get]
  | cons kv r ih =>
    by_cases hk : kv.1 = k
    · simp [Values.set, Values.get, hk]
    · simp [Values.set, Values.get, hk, ih]

theorem get_set_ne (m : Values) (k0 k v : Str) (h : k0 ≠ k) :
    (Values.set m k0 v).get k = m.get k := by
  induction m with
  | nil => simp [Values.set, Values.get, h]
  | cons kv r ih =>
    by_cases hk : kv.1 = k0
    · simp [Values.set, Values.get, hk, h, hk ▸ h]
    · simp [Values.set, Values.get, hk, ih]

theorem get_foldl_add (ps : List (Str × Str)) : ∀ (m : Values) (k : Str),
    (ps.foldl (fun m kv => Values.add m kv.1 kv.2) m).get k
      = m.get k ++ valuesFor k ps := by
  induction ps with
  | nil => intro m k; simp [valuesFor]
  | cons p rest ih =>
    intro m k
    rw [List.foldl_cons, ih]
    by_cases hp : p.1 = k
    · subst hp
      rw [get_add_self m p.1 p.2]
      simp [valuesFor]
    · rw [get_add_ne m p.1 k p.2 hp]
      simp [valuesFor, hp]

theorem get_foldl_set_nm (P : List (Str × Str)) : ∀ (m : Values) (k : Str),
    k ∉ P.map Prod.fst →
    (P.foldl (fun m kv => Values.set m kv.1 kv.2) m).get k = m.get k := by
  induction P with
  | nil => intro m k _; rfl
  | cons p rest ih =>
    intro m k hk
    have h1 : p.1 ≠ k := fun he => hk (by simp [he])
    have h2 : k ∉ rest.map Prod.fst := fun hm => hk (by simp [hm])
    rw [List.foldl_cons, ih _ k h2, get_set_ne m p.1 k p.2 h1]

theorem get_foldl_set (P : List (Str × Str)) : ∀ (m : Values) (k : Str),
    (P.map Prod.fst).Nodup →
    (P.foldl (fun m kv => Values.set m kv.1 kv.2) m).get k
      = (match lookupStr P k with
         | some v => [v]
         | none => m.get k) := by
  induction P with
  | nil => intro m k _; rfl
  | cons p rest ih =>
    intro m k hnd
    have hnd2 : p.1 ∉ rest.map Prod.fst ∧ (rest.map Prod.fst).Nodup := by
      rw [List.map_cons, List.nodup_cons] at hnd; exact hnd
    rw [List.foldl_cons]
    by_cases hp : p.1 = k
    · subst hp
      rw [get_foldl_set_nm rest _ p.1 hnd2.1, get_set_self m p.1 p.2]
      simp [lookupStr]
    · rw [ih _ k hnd2.2]
      cases hl : lookupStr rest k with
      | some v => simp [lookupStr, hp, hl]
      | none => simp [lookupStr, hp, hl, get_set_ne m p.1 k p.2 hp]

theorem keys_set_eq (m : Values) (k v : Str) :
    (Values.set m k v).map Prod.fst
      = if k ∈ m.map Prod.fst then m.map Prod.fst else m.map Prod.fst ++ [k] := by
  induction m with
  | nil => simp [Values.set]
  | cons kv r ih =>
    by_cases hk : kv.1 = k
    · subst hk
      simp [Values.set]
    · by_cases hm : k ∈ r.map Prod.fst
      · simp [Values.set, hk, ih, hm, Ne.symm hk]
      · simp [Values.set, hk, ih, hm, Ne.symm hk]

theorem nodup_set (m : Values) (k v : Str) (h : (m.map Prod.fst).Nodup) :
    ((Values.set m k v).map Prod.fst).Nodup := by
  rw [keys_set_eq]
  by_cases hm : k ∈ m.map Prod.fst
  · simpa [hm] using h
  · simp [hm, List.nodup_append, h]

theorem keys_add_eq (m : Values) (k v : Str) :
    (Values.add m k v).map Prod.fst
      = if k ∈ m.map Prod.fst then m.map Prod.fst else m.map Prod.fst ++ [k] := by
  induction m with
  | nil => simp [Values.add]
  | cons kv r ih =>
    by_cases hk : kv.1 = k
    · subst hk
      simp [Values.add]
    · by_cases hm : k ∈ r.map Prod.fst
      · simp [Values.add, hk, ih, hm, Ne.symm hk]
      · simp [Values.add, hk, ih, hm, Ne.symm hk]

theorem nodup_add (m : Values) (k v : Str) (h : (m.map Prod.fst).Nodup) :
    ((Values.add m k v).map Prod.fst).Nodup := by
  rw [keys_add_eq]
  by_cases hm : k ∈ m.map Prod.fst
  · simpa [hm] using h
  · simp [hm, List.nodup_append, h]

theorem safeV_set (m : Values) (k v : Str)
    (hk : safeStr k = true) (hv : safeStr v = true) :
    SafeV m → SafeV (Values.set m k v) := by
  induction m with
  | nil =>
    intro _ kv hkv
    simp [Values.set] at hkv
    subst hkv
    exact ⟨hk, by simpa using hv⟩
  | cons kv0 r ih =>
    intro h kv hkv
    by_cases hk0 : kv0.1 = k
    · simp [Values.set, hk0] at hkv
      rcases hkv with hkv | hkv
      · subst hkv; exact ⟨hk, by simpa using hv⟩
      · exact h kv (List.mem_cons_of_mem kv0 hkv)
    · simp [Values.set, hk0, List.mem_cons] at hkv
      rcases hkv with hkv | hkv
      · rw [hkv]; exact h kv0 (List.mem_cons_self kv0 r)
      · exact ih (fun x hx => h x (List.mem_cons_of_mem kv0 hx)) kv hkv

theorem safeV_add (m : Values) (k v : Str)
    (hk : safeStr k = true) (hv : safeStr v = true) :
    SafeV m → SafeV (Values.add m k v) := by
  induction m with
  | nil =>
    intro _ kv hkv
    simp [Values.add] at hkv
    subst hkv
    exact ⟨hk, by simpa using hv⟩
  | cons kv0 r ih =>
    intro h kv hkv
    by_cases hk0 : kv0.1 = k
    · simp [Values.add, hk0] at hkv
      rcases hkv with hkv | hkv
      · subst hkv
        have h0 := h kv0 (List.mem_cons_self kv0 r)
        refine ⟨hk, fun x hx => ?_⟩
        rcases List.mem_append.mp hx with hx | hx
        · exact h0.2 x hx
        · rw [List.mem_singleton.mp hx]; exact hv
      · exact h kv (List.mem_cons_of_mem kv0 hkv)
    · simp [Values.add, hk0, List.mem_cons] at hkv
      rcases hkv with hkv | hkv
      · rw [hkv]; exact h kv0 (List.mem_cons_self kv0 r)
      · exact ih (fun x hx => h x (List.mem_cons_of_mem kv0 hx)) kv hkv

theorem safeV_foldl_set (P : List (Str × Str)) : ∀ (m : Values), SafeV m →
    (∀ kv ∈ P, safeStr kv.1 = true ∧ safeStr kv.2 = true) →
    SafeV (P.foldl (fun m kv => Values.set m kv.1 kv.2) m) := by
  induction P with
  | nil => intro m hm _; exact hm
  | cons p rest ih =>
    intro m hm hP
    have hp := hP p (List.mem_cons_self p rest)
    exact ih _ (safeV_set m p.1 p.2 hp.1 hp.2 hm)
      (fun x hx => hP x (List.mem_cons_of_mem p hx))

theorem safeV_foldl_add (ps : List (Str × Str)) : ∀ (m : Values), SafeV m →
    (∀ kv ∈ ps, safeStr kv.1 = true ∧ safeStr kv.2 = true) →
    SafeV (ps.foldl (fun m kv => Values.add m kv.1 kv.2) m) := by
  induction ps with
  | nil => intro m hm _; exact hm
  | cons p rest ih =>
    intro m hm hP
    have hp := hP p (List.mem_cons_self p rest)
    exact ih _ (safeV_add m p.1 p.2 hp.1 hp.2 hm)
      (fun x hx => hP x (List.mem_cons_of_mem p hx))

theorem nodup_foldl_set (P : List (Str × Str)) : ∀ (m : Values),
    (m.map Prod.fst).Nodup →
    (((P.foldl (fun m kv => Values.set m kv.1 kv.2) m)).map Prod.fst).Nodup := by
  induction P with
  | nil => intro m hm; exact hm
  | cons p rest ih => intro m hm; exact ih _ (nodup_set m p.1 p.2 hm)

theorem nodup_foldl_add (ps : List (Str × Str)) : ∀ (m : Values),
    (m.map Prod.fst).Nodup →
    (((ps.foldl (fun m kv => Values.add m kv.1 kv.2) m)).map Prod.fst).Nodup := by
  induction ps with
  | nil => intro m hm; exact hm
  | cons p rest ih => intro m hm; exact ih _ (nodup_add m p.1 p.2 hm)

/-! ### Split/join/parse lemmas (C2, C8) -/

theorem cutChar_no_sep (sep : Char) (s : Str) (h : sep ∉ s) :
    cutChar sep s = (s, [], false) := by
  induction s with
  | nil => rfl
  | cons c cs ih =>
    have hc : c ≠ sep := fun he => h (he ▸ List.mem_cons_self c cs)
    have ht : sep ∉ cs := fun hm => h (List.mem_cons_of_mem c hm)
    simp [cutChar, hc, ih ht]

theorem cutChar_split_str (sep : Char) (a b : Str) (h : sep ∉ a) :
    cutChar sep (a ++ sep :: b) = (a, b, true) := by
  induction a with
  | nil => simp [cutChar]
  | cons c cs ih =>
    have hc : c ≠ sep := fun he => h (he ▸ List.mem_cons_self c cs)
    have ht : sep ∉ cs := fun hm => h (List.mem_cons_of_mem c hm)
    simp [cutChar, hc, ih ht]

theorem splitOnChar_no_sep (sep : Char) (s : Str) (h : sep ∉ s) :
    splitOnChar sep s = [s] := by
  induction s with
  | nil => rfl
  | cons c cs ih =>
    have hc : c ≠ sep := fun he => h (he ▸ List.mem_cons_self c cs)
    have ht : sep ∉ cs := fun hm => h (List.mem_cons_of_mem c hm)
    simp [splitOnChar, hc, ih ht]

theorem splitOnChar_append (sep : Char) (s t : Str) (h : sep ∉ s) :
    splitOnChar sep (s ++ sep :: t) = s :: splitOnChar sep t := by
  induction s with
  | nil => simp [splitOnChar]
  | cons c cs ih =>
    have hc : c ≠ sep := fun he => h (he ▸ List.mem_cons_self c cs)
    have ht : sep ∉ cs := fun hm => h (List.mem_cons_of_mem c hm)
    rw [List.cons_append, splitOnChar]
    simp only [hc, if_neg, ih ht]
    rfl

theorem joinAmp_split (L : List Str) (hL : ∀ s ∈ L, '&' ∉ s) (hne : L ≠ []) :
    splitOnChar '&' (joinAmp L) = L := by
  induction L with
  | nil => exact absurd rfl hne
  | cons s rest ih =>
    cases rest with
    | nil => exact splitOnChar_no_sep '&' s (hL s (List.mem_cons_self s []))
    | cons s2 r2 =>
      rw [show joinAmp (s :: s2 :: r2) = s ++ '&' :: joinAmp (s2 :: r2) from rfl]
      rw [splitOnChar_append '&' s _ (hL s (List.mem_cons_self s _))]
      rw [ih (fun x hx => hL x (List.mem_cons_of_mem s hx)) (by simp)]

theorem pairStr_no_amp (kv : Str × Str)
    (hk : safeStr kv.1 = true) (hv : safeStr kv.2 = true) : '&' ∉ pairStr kv := by
  intro hm
  rcases List.mem_append.mp hm with hm | hm
  · exact safe_not_mem kv.1 hk '&' (by decide) hm
  · rcases List.mem_cons.mp hm with hm | hm
    · exact absurd hm (by decide)
    · exact safe_not_mem kv.2 hv '&' (by decide) hm

theorem parseQSegs_emit (ps : List (Str × Str)) : ∀ (m : Values) (e : Bool),
    (∀ kv ∈ ps, safeStr kv.1 = true ∧ safeStr kv.2 = true) →
    parseQSegs (ps.map pairStr) m e
      = (ps.foldl (fun m kv => Values.add m kv.1 kv.2) m, e) := by
  induction ps with
  | nil => intro m e _; rfl
  | cons p rest ih =>
    intro m e hsafe
    obtain ⟨hk, hv⟩ := hsafe p (List.mem_cons_self p rest)
    have hsemi : ';' ∉ pairStr p := by
      intro hm
      rcases List.mem_append.mp hm with hm | hm
      · exact safe_not_mem p.1 hk ';' (by decide) hm
      · rcases List.mem_cons.mp hm with hm | hm
        · exact absurd hm (by decide)
        · exact safe_not_mem p.2 hv ';' (by decide) hm
    have hne : pairStr p ≠ [] := by simp [pairStr]
    have hcut : cutChar '=' (pairStr p) = (p.1, p.2, true) :=
      cutChar_split_str '=' p.1 p.2 (safe_not_mem p.1 hk '=' (by decide))
    have hu1 : queryUnescape p.1 = some p.1 := unescape_safe _ hk
    have hu2 : queryUnescape p.2 = some p.2 := unescape_safe _ hv
    rw [List.map_cons, parseQSegs]
    simp only [hsemi, hne, hcut, hu1, hu2]
    rw [if_neg not_false, if_neg not_false, List.foldl_cons]
    exact ih _ e (fun x hx => hsafe x (List.mem_cons_of_mem p hx))

theorem valuesFor_append (k : Str) (l1 l2 : List (Str × Str)) :
    valuesFor k (l1 ++ l2) = valuesFor k l1 ++ valuesFor k l2 := by
  induction l1 with
  | nil => rfl
  | cons p r ih =>
    by_cases hp : p.1 = k <;> simp [valuesFor, hp, ih]

theorem valuesFor_map_self (k : Str) (vs : List Str) :
    valuesFor k (vs.map (fun v => (k, v))) = vs := by
  induction vs with
  | nil => rfl
  | cons v r ih => simp [valuesFor, ih]

theorem valuesFor_map_ne (k0 k : Str) (vs : List Str) (h : k0 ≠ k) :
    valuesFor k (vs.map (fun v => (k0, v))) = [] := by
  induction vs with
  | nil => rfl
  | cons v r ih => simp [valuesFor, h, ih]

theorem valuesFor_pairs_nm (k : Str) (l : Values) (h : k ∉ l.map Prod.fst) :
    valuesFor k (Values.pairs l) = [] := by
  induction l with
  | nil => rfl
  | cons kv r ih =>
    have hk : kv.1 ≠ k := fun he => h (by simp [he])
    have ht : k ∉ r.map Prod.fst := fun hm => h (by simp [hm])
    rw [show Values.pairs (kv :: r) = kv.2.map (fun v => (kv.1, v)) ++ Values.pairs r from rfl]
    rw [valuesFor_append, valuesFor_map_ne kv.1 k kv.2 hk, ih ht]
    rfl

theorem valuesFor_pairs_nodup (l : Values) (hnd : (l.map Prod.fst).Nodup) (k : Str) :
    valuesFor k (Values.pairs l) = Values.get l k := by
  induction l with
  | nil => rfl
  | cons kv r ih =>
    have hnd2 : kv.1 ∉ r.map Prod.fst ∧ (r.map Prod.fst).Nodup := by
      rw [List.map_cons, List.nodup_cons] at hnd; exact hnd
    rw [show Values.pairs (kv :: r) = kv.2.map (fun v => (kv.1, v)) ++ Values.pairs r from rfl]
    rw [valuesFor_append]
    by_cases hk : kv.1 = k
    · subst hk
      rw [valuesFor_map_self, valuesFor_pairs_nm kv.1 r hnd2.1]
      simp [Values.get]
    · rw [valuesFor_map_ne kv.1 k kv.2 hk, ih hnd2.2]
      simp [Values.get, hk]

theorem get_perm {l1 l2 : Values} (h : l1.Perm l2) :
    ∀ (_ : (l1.map Prod.fst).Nodup) (k : Str), Values.get l1 k = Values.get l2 k := by
  induction h with
  | nil => intro _ k; rfl
  | cons x h12 ih =>
    intro hnd k
    rw [List.map_cons, List.nodup_cons] at hnd
    by_cases hx : x.1 = k <;> simp [Values.get, hx, ih hnd.2 k]
  | swap x y l =>
    intro hnd k
    by_cases hy : y.1 = k <;> by_cases hx : x.1 = k
    · exfalso
      rw [List.map_cons, List.map_cons, List.nodup_cons] at hnd
      exact hnd.1 (by rw [hy, ← hx]; exact List.mem_cons_self x.1 _)
    · simp [Values.get, hx, hy]
    · simp [Values.get, hx, hy]
    · simp [Values.get, hx, hy]
  | trans h1 h2 ih1 ih2 =>
    intro hnd k
    have hndm := ((h1.map Prod.fst).nodup_iff).mp hnd
    rw [ih1 hnd k, ih2 hndm k]

theorem mem_pairs (l : Values) (kv : Str × Str) (h : kv ∈ Values.pairs l) :
    ∃ vs, (kv.1, vs) ∈ l ∧ kv.2 ∈ vs := by
  induction l with
  | nil => exact absurd h (by simp [Values.pairs])
  | cons e r ih =>
    rw [show Values.pairs (e :: r) = e.2.map (fun v => (e.1, v)) ++ Values.pairs r from rfl] at h
    rcases List.mem_append.mp h with h | h
    · obtain ⟨v, hv, he⟩ := List.mem_map.mp h
      refine ⟨e.2, ?_, ?_⟩
      · rw [← he]
        exact List.mem_cons_self _ _
      · rw [← he]
        exact hv
    · obtain ⟨vs, hvs, hm⟩ := ih h
      exact ⟨vs, List.mem_cons_of_mem e hvs, hm⟩

theorem goParseQuery_encode (m : Values) (hnd : (m.map Prod.fst).Nodup)
    (hs : SafeV m) :
    goParseQuery (Values.encode m)
      = ((Values.pairs (m.insertionSort (fun a b => strLeB a.1 b.1 = true))).foldl
          (fun m kv => Values.add m kv.1 kv.2) [], false)
  ∧ ∀ k, ((Values.pairs (m.insertionSort (fun a b => strLeB a.1 b.1 = true))).foldl
          (fun m kv => Values.add m kv.1 kv.2) []).get k = m.get k := by
  have hperm : (m.insertionSort (fun a b => strLeB a.1 b.1 = true)).Perm m :=
    List.perm_insertionSort _ m
  have hsortnd : ((m.insertionSort (fun a b => strLeB a.1 b.1 = true)).map
      Prod.fst).Nodup := ((hperm.map Prod.fst).nodup_iff).mpr hnd
  have hpsafe : ∀ kv ∈ Values.pairs (m.insertionSort (fun a b => strLeB a.1 b.1 = true)),
      safeStr kv.1 = true ∧ safeStr kv.2 = true := by
    intro kv hkv
    obtain ⟨vs, hvs, hv⟩ := mem_pairs _ kv hkv
    have he := hs (kv.1, vs) (hperm.mem_iff.mp hvs)
    exact ⟨he.1, he.2 kv.2 hv⟩
  have hemit : Values.encode m
      = joinAmp ((Values.pairs (m.insertionSort (fun a b => strLeB a.1 b.1 = true))).map
          pairStr) := by
    rw [Values.encode]
    congr 1
    refine List.map_congr_left (fun kv hkv => ?_)
    obtain ⟨hk, hv⟩ := hpsafe kv hkv
    rw [pairStr, escape_safe kv.1 hk, escape_safe kv.2 hv]
  refine ⟨?_, ?_⟩
  · rw [hemit, goParseQuery]
    cases hps : Values.pairs (m.insertionSort (fun a b => strLeB a.1 b.1 = true)) with
    | nil => rfl
    | cons p pr =>
      rw [← hps]
      rw [joinAmp_split _ (fun s hsm => ?_) (by simp [hps])]
      · exact parseQSegs_emit _ [] false hpsafe
      · obtain ⟨kv, hkv, he⟩ := List.mem_map.mp hsm
        rw [← he]
        exact pairStr_no_amp kv (hpsafe kv hkv).1 (hpsafe kv hkv).2
  · intro k
    rw [get_foldl_add]
    rw [show Values.get [] k = [] from rfl, List.nil_append]
    rw [valuesFor_pairs_nodup _ hsortnd k]
    exact get_perm hperm hsortnd k

/-! ### URL-level lemmas (C2, C8) -/

theorem replaceAllF_nil (fuel : Nat) (pat rep : Str) :
    replaceAllF fuel [] pat rep = [] := by
  cases fuel with
  | zero => rfl
  | succ n => cases pat <;> simp [replaceAllF, List.isPrefixOf]

theorem replaceAllF_head_nm (q rep : Str) : ∀ (fuel : Nat) (s : Str), '?' ∉ s →
    replaceAllF fuel s ('?' :: q) rep = s := by
  intro fuel
  induction fuel with
  | zero => intro s _; rfl
  | succ n ih =>
    intro s hs
    cases s with
    | nil => exact replaceAllF_nil _ _ _
    | cons c cs =>
      have hc : '?' ≠ c := fun he => hs (he ▸ List.mem_cons_self c cs)
      have hpref : (('?' :: q).isPrefixOf (c :: cs)) = false := by
        simp [List.isPrefixOf, hc]
      simp [replaceAllF, hpref, ih cs (fun hm => hs (List.mem_cons_of_mem c hm))]

theorem replaceAllF_strip (q : Str) (hq : '?' ∉ q) : ∀ (fuel : Nat) (a : Str),
    '?' ∉ a → a.length + (q.length + 1) ≤ fuel →
    replaceAllF fuel (a ++ '?' :: q) ('?' :: q) [] = a := by
  intro fuel
  induction fuel with
  | zero => intro a _ hb; omega
  | succ n ih =>
    intro a ha hb
    cases a with
    | nil =>
      have hpref : (('?' :: q).isPrefixOf ('?' :: q)) = true := by
        simpa using isPrefixOf_append ('?' :: q) []
      rw [List.nil_append, replaceAllF, if_pos ⟨by simp, hpref⟩]
      rw [List.drop_length ('?' :: q), replaceAllF_nil]
      rfl
    | cons c cs =>
      have hc : '?' ≠ c := fun he => ha (he ▸ List.mem_cons_self c cs)
      have hpref : (('?' :: q).isPrefixOf (c :: (cs ++ '?' :: q))) = false := by
        simp [List.isPrefixOf, hc]
      have hbn : cs.length + (q.length + 1) ≤ n := by
        simp only [List.length_cons] at hb; omega
      rw [List.cons_append, replaceAllF, if_neg (by simp [hpref])]
      show c :: replaceAllF n (cs ++ '?' :: q) ('?' :: q) [] = c :: cs
      rw [ih cs (fun hm => ha (List.mem_cons_of_mem c hm)) hbn]

theorem replaceAll_nm (s q : Str) (hs : '?' ∉ s) :
    replaceAll s ('?' :: q) [] = s :=
  replaceAllF_head_nm q [] s.length s hs

theorem replaceAll_strip (a q : Str) (ha : '?' ∉ a) (hq : '?' ∉ q) :
    replaceAll (a ++ '?' :: q) ('?' :: q) [] = a := by
  refine replaceAllF_strip q hq (a ++ '?' :: q).length a ha ?_
  simp

theorem mergeParams_eq (u : GoURL) (vs : Values) (hfrag : u.fragment = [])
    (hqp : '?' ∉ u.pre) (hqr : '?' ∉ u.rawQuery) :
    mergeParams u vs = u.pre ++ '?' :: Values.encode vs := by
  rw [mergeParams, urlString, hfrag]
  have htriv : (if ([] : Str) = [] then ([] : Str) else '#' :: []) = [] := rfl
  rw [htriv, List.append_nil]
  by_cases hforce : (u.forceQuery || !decide (u.rawQuery = [])) = true
  · rw [if_pos hforce, replaceAll_strip u.pre u.rawQuery hqp hqr]
  · rw [if_neg hforce, List.append_nil, replaceAll_nm u.pre u.rawQuery hqp]

theorem cutChar_mem (sep : Char) : ∀ (s : Str) (c : Char),
    (c ∈ (cutChar sep s).1 → c ∈ s) ∧ (c ∈ (cutChar sep s).2.1 → c ∈ s) := by
  intro s
  induction s with
  | nil => intro c; simp [cutChar]
  | cons c0 cs ih =>
    intro c
    by_cases h0 : c0 = sep
    · simp only [cutChar, h0, if_pos rfl]
      exact ⟨fun h => absurd h (by simp), fun h => List.mem_cons_of_mem _ h⟩
    · simp only [cutChar, if_neg h0]
      constructor
      · intro h
        rcases List.mem_cons.mp h with h | h
        · exact h ▸ List.mem_cons_self c0 cs
        · exact List.mem_cons_of_mem c0 ((ih c).1 h)
      · intro h
        exact List.mem_cons_of_mem c0 ((ih c).2 h)

theorem parseGoURL_pre_mem (s : Str) (c : Char) (h : c ∈ (parseGoURL s).pre) :
    c ∈ s := by
  rw [parseGoURL] at h
  exact (cutChar_mem '#' s c).1 ((cutChar_mem '?' _ c).1 h)

theorem parseGoURL_raw_mem (s : Str) (c : Char) (h : c ∈ (parseGoURL s).rawQuery) :
    c ∈ s := by
  rw [parseGoURL] at h
  exact (cutChar_mem '#' s c).1 ((cutChar_mem '?' _ c).2 h)

theorem parseGoURL_frag_mem (s : Str) (c : Char)
    (h : c ∈ (parseGoURL s).fragment) : c ∈ s := by
  rw [parseGoURL] at h
  exact (cutChar_mem '#' s c).2 h

theorem replaceAllF_strip_mid (q b : Str) (hq : '?' ∉ q) (hb : '?' ∉ b) :
    ∀ (fuel : Nat) (a : Str), '?' ∉ a → a.length + (q.length + 1) ≤ fuel →
    replaceAllF fuel (a ++ '?' :: (q ++ b)) ('?' :: q) [] = a ++ b := by
  intro fuel
  induction fuel with
  | zero => intro a _ hbound; omega
  | succ n ih =>
    intro a ha hbound
    cases a with
    | nil =>
      have hs : '?' :: (q ++ b) = ('?' :: q) ++ b := by simp
      have hpref : (('?' :: q).isPrefixOf ('?' :: (q ++ b))) = true := by
        rw [hs]; exact isPrefixOf_append ('?' :: q) b
      have hdrop : List.drop ('?' :: q).length ('?' :: (q ++ b)) = b := by
        rw [hs]; exact List.drop_left _ _
      rw [List.nil_append, replaceAllF, if_pos ⟨by simp, hpref⟩, hdrop]
      rw [replaceAllF_head_nm q [] n b hb]
    | cons c cs =>
      have hc : '?' ≠ c := fun he => ha (he ▸ List.mem_cons_self c cs)
      have hpref : (('?' :: q).isPrefixOf (c :: (cs ++ '?' :: (q ++ b)))) = false := by
        simp [List.isPrefixOf, hc]
      have hbn : cs.length + (q.length + 1) ≤ n := by
        simp only [List.length_cons] at hbound; omega
      rw [List.cons_append, replaceAllF, if_neg (by simp [hpref])]
      show c :: replaceAllF n (cs ++ '?' :: (q ++ b)) ('?' :: q) [] = (c :: cs) ++ b
      rw [ih cs (fun hm => ha (List.mem_cons_of_mem c hm)) hbn, List.cons_append]

theorem replaceAll_strip_mid (a q b : Str) (ha : '?' ∉ a) (hq : '?' ∉ q)
    (hb : '?' ∉ b) :
    replaceAll (a ++ '?' :: (q ++ b)) ('?' :: q) [] = a ++ b := by
  refine replaceAllF_strip_mid q b hq hb (a ++ '?' :: (q ++ b)).length a ha ?_
  simp

theorem mergeParams_frag_eq (u : GoURL) (vs : Values) (hfrag : u.fragment ≠ [])
    (hqp : '?' ∉ u.pre) (hqr : '?' ∉ u.rawQuery) (hqf : '?' ∉ u.fragment) :
    mergeParams u vs = (u.pre ++ '#' :: u.fragment) ++ '?' :: Values.encode vs := by
  have hbf : '?' ∉ '#' :: u.fragment := by
    intro hm
    rcases List.mem_cons.mp hm with h | h
    · exact absurd h (by decide)
    · exact hqf h
  rw [mergeParams, urlString, if_neg hfrag]
  by_cases hforce : (u.forceQuery || !decide (u.rawQuery = [])) = true
  · rw [if_pos hforce, List.append_assoc, List.cons_append,
      replaceAll_strip_mid u.pre u.rawQuery ('#' :: u.fragment) hqp hqr hbf]
  · have hpf : '?' ∉ u.pre ++ '#' :: u.fragment := by
      intro hm
      rcases List.mem_append.mp hm with h | h
      · exact hqp h
      · exact hbf h
    rw [if_neg hforce, List.append_nil, replaceAll_nm _ u.rawQuery hpf]

theorem parseGoURLE_rebuild_frag (pre frag enc : Str)
    (hc1 : ∀ c ∈ pre, ¬ c.toNat < 32) (hcf : ∀ c ∈ frag, ¬ c.toNat < 32)
    (hc2 : ∀ c ∈ enc, ¬ c.toNat < 32)
    (hhp : '#' ∉ pre) (hqp : '?' ∉ pre) :
    parseGoURLE ((pre ++ '#' :: frag) ++ '?' :: enc)
      = some ⟨pre, [], frag ++ '?' :: enc, false⟩ := by
  have hmem : ∀ c ∈ (pre ++ '#' :: frag) ++ '?' :: enc, ¬ c.toNat < 32 := by
    intro c hc
    rcases List.mem_append.mp hc with h | h
    · rcases List.mem_append.mp h with h | h
      · exact hc1 c h
      · rcases List.mem_cons.mp h with h | h
        · subst h; decide
        · exact hcf c h
    · rcases List.mem_cons.mp h with h | h
      · subst h; decide
      · exact hc2 c h
  have hany : (((pre ++ '#' :: frag) ++ '?' :: enc).any
      (fun c => decide (c.toNat < 32))) = false := by
    rw [List.any_eq_false]
    intro c hc
    simpa using hmem c hc
  have hcond : ¬ ((((pre ++ '#' :: frag) ++ '?' :: enc).any
      (fun c => decide (c.toNat < 32))) = true) := by
    rw [hany]; simp
  rw [parseGoURLE, if_neg hcond]
  rw [parseGoURL, List.append_assoc, List.cons_append,
    cutChar_split_str '#' pre (frag ++ '?' :: enc) hhp]
  simp only [cutChar_no_sep '?' pre hqp]
  rfl

theorem parseGoURLE_rebuild (pre enc : Str)
    (hc1 : ∀ c ∈ pre, ¬ c.toNat < 32) (hc2 : ∀ c ∈ enc, ¬ c.toNat < 32)
    (hqp : '?' ∉ pre) (hhp : '#' ∉ pre) (hqe : '?' ∉ enc) (hhe : '#' ∉ enc) :
    parseGoURLE (pre ++ '?' :: enc)
      = some ⟨pre, enc, [], decide (enc = [])⟩ := by
  have hmem : ∀ c ∈ pre ++ '?' :: enc, ¬ c.toNat < 32 := by
    intro c hc
    rcases List.mem_append.mp hc with h | h
    · exact hc1 c h
    · rcases List.mem_cons.mp h with h | h
      · subst h; decide
      · exact hc2 c h
  have hany : ((pre ++ '?' :: enc).any (fun c => decide (c.toNat < 32))) = false := by
    rw [List.any_eq_false]
    intro c hc
    simpa using hmem c hc
  have hhash : '#' ∉ pre ++ '?' :: enc := by
    intro hm
    rcases List.mem_append.mp hm with h | h
    · exact hhp h
    · rcases List.mem_cons.mp h with h | h
      · exact absurd h (by decide)
      · exact hhe h
  rw [parseGoURLE, if_neg (by simp [hany])]
  rw [parseGoURL, cutChar_no_sep '#' _ hhash]
  simp only [cutChar_split_str '?' pre enc hqp]
  rw [Bool.true_and]

theorem joinAmp_mem (L : List Str) : ∀ (c : Char), c ∈ joinAmp L →
    (∃ s ∈ L, c ∈ s) ∨ c = '&' := by
  induction L with
  | nil => intro c h; exact absurd h (by simp [joinAmp])
  | cons s rest ih =>
    intro c h
    cases rest with
    | nil => exact Or.inl ⟨s, List.mem_cons_self s [], h⟩
    | cons s2 r2 =>
      rw [show joinAmp (s :: s2 :: r2) = s ++ '&' :: joinAmp (s2 :: r2) from rfl] at h
      rcases List.mem_append.mp h with h | h
      · exact Or.inl ⟨s, List.mem_cons_self s _, h⟩
      · rcases List.mem_cons.mp h with h | h
        · exact Or.inr h
        · rcases ih c h with ⟨t, ht, hct⟩ | h
          · exact Or.inl ⟨t, List.mem_cons_of_mem s ht, hct⟩
          · exact Or.inr h

theorem encode_chars (m : Values) (hs : SafeV m) (c : Char)
    (hc : c ∈ Values.encode m) :
    isUnreservedChar c = true ∨ c = '=' ∨ c = '&' := by
  rw [Values.encode] at hc
  rcases joinAmp_mem _ c hc with ⟨s, hsm, hcs⟩ | h
  · obtain ⟨kv, hkv, he⟩ := List.mem_map.mp hsm
    obtain ⟨vs, hvs, hv⟩ := mem_pairs _ kv hkv
    have hperm := List.perm_insertionSort
      (fun (a b : Str × List Str) => strLeB a.1 b.1 = true) m
    have hkv2 := hs (kv.1, vs) (hperm.mem_iff.mp hvs)
    have hkvs : safeStr kv.1 = true := hkv2.1
    have hvss : safeStr kv.2 = true := hkv2.2 kv.2 hv
    rw [← he, escape_safe kv.1 hkvs, escape_safe kv.2 hvss] at hcs
    rcases List.mem_append.mp hcs with h | h
    · exact Or.inl (safe_mem kv.1 hkvs c h)
    · rcases List.mem_cons.mp h with h | h
      · exact Or.inr (Or.inl h)
      · exact Or.inl (safe_mem kv.2 hvss c h)
  · exact Or.inr (Or.inr h)

theorem nodup_parseQSegs (segs : List Str) : ∀ (m : Values) (e : Bool),
    (m.map Prod.fst).Nodup →
    (((parseQSegs segs m e).1).map Prod.fst).Nodup := by
  induction segs with
  | nil => intro m e hnd; exact hnd
  | cons seg rest ih =>
    intro m e hnd
    rw [parseQSegs]
    by_cases h1 : ';' ∈ seg
    · rw [if_pos h1]; exact ih _ _ hnd
    · rw [if_neg h1]
      by_cases h2 : seg = []
      · rw [if_pos h2]; exact ih _ _ hnd
      · rw [if_neg h2]
        cases hq1 : queryUnescape (cutChar '=' seg).1 with
        | none =>
          cases hq2 : queryUnescape (cutChar '=' seg).2.1 <;>
            · simp only [hq1, hq2]
              exact ih _ _ hnd
        | some k =>
          cases hq2 : queryUnescape (cutChar '=' seg).2.1 with
          | none =>
            simp only [hq1, hq2]
            exact ih _ _ hnd
          | some v =>
            simp only [hq1, hq2]
            exact ih _ _ (nodup_add m k v hnd)

/-- C2 (counterexample): for the base URL `http://e.com/x?a=1&a=2` (whose
query legitimately repeats the key `a`) and the parameter map `{b: 2}`,
the merged URL's query still carries `a` twice — refuting "no duplicate
keys in the result". -/
theorem prepareURL_dup_cex :
    prepareURL (str "http://e.com/x?a=1&a=2") [(str "b", str "2")]
      = .ok (str "http://e.com/x?a=1&a=2&b=2")
  ∧ ((goParseQuery (parseGoURL (str "http://e.com/x?a=1&a=2&b=2")).rawQuery).1.get
      (str "a")).length = 2 := by
  exact ⟨rfl, rfl⟩
/-- C2 (amended): for every non-empty parameter map `P` (distinct keys,
unreserved characters) and parsable base URL whose prefix and raw query
are `?`-free and whose query parses cleanly into safe keys and values:
when the URL carries no fragment, merging and re-parsing yields every key
of `P` exactly once with `P`'s value, and every pre-existing key not in
`P` preserved with all of its values — so a repeated pre-existing key
remains repeated (duplicates are not collapsed for keys the map does not
touch); when the URL carries a fragment (itself `?`-free), `mergeParams`
appends the merged query after the `#fragment` part, so the rebuilt URL's
raw query is empty and no key — neither `P`'s nor a pre-existing one —
survives re-parsing. -/
theorem prepareURL_merge (P : List (Str × Str)) (originUrl : Str) (u : GoURL)
    (Q : Values)
    (hP : P ≠ []) (hPnd : (P.map Prod.fst).Nodup)
    (hPsafe : ∀ kv ∈ P, safeStr kv.1 = true ∧ safeStr kv.2 = true)
    (hu : parseGoURLE originUrl = some u)
    (hqp : '?' ∉ u.pre) (hhp : '#' ∉ u.pre) (hqr : '?' ∉ u.rawQuery)
    (hQ : goParseQuery u.rawQuery = (Q, false))
    (hQsafe : SafeV Q) :
    (u.fragment = [] →
      ∃ r u2, prepareURL originUrl P = .ok r ∧ parseGoURLE r = some u2
        ∧ (goParseQuery u2.rawQuery).2 = false
        ∧ (∀ k v, lookupStr P k = some v →
            (goParseQuery u2.rawQuery).1.get k = [v])
        ∧ (∀ k, lookupStr P k = none →
            (goParseQuery u2.rawQuery).1.get k = Values.get Q k))
  ∧ (u.fragment ≠ [] → '?' ∉ u.fragment →
      ∃ r u2, prepareURL originUrl P = .ok r ∧ parseGoURLE r = some u2
        ∧ u2.rawQuery = []
        ∧ (∀ k, (goParseQuery u2.rawQuery).1.get k = [])) := by
  have hu0 := hu
  rw [parseGoURLE] at hu0
  by_cases hctrl : originUrl.any (fun c => decide (c.toNat < 32)) = true
  · rw [if_pos hctrl] at hu0
    exact absurd hu0 (by simp)
  · rw [if_neg hctrl] at hu0
    have hup : parseGoURL originUrl = u := Option.some.inj hu0
    have hctrlU : ∀ c ∈ originUrl, ¬ c.toNat < 32 := by
      rw [Bool.not_eq_true, List.any_eq_false] at hctrl
      intro c hc
      simpa using hctrl c hc
    have hQnd : (Q.map Prod.fst).Nodup := by
      have hn := nodup_parseQSegs (splitOnChar '&' u.rawQuery) [] false (by simp)
      rw [show parseQSegs (splitOnChar '&' u.rawQuery) [] false
        = goParseQuery u.rawQuery from rfl, hQ] at hn
      exact hn
    have hMnd := nodup_foldl_set P Q hQnd
    have hMsafe := safeV_foldl_set P Q hQsafe hPsafe
    have henc := goParseQuery_encode
      (P.foldl (fun m kv => Values.set m kv.1 kv.2) Q) hMnd hMsafe
    have hlen : ¬ P.length = 0 := by simpa using hP
    have hres : prepareURL originUrl P
        = .ok (mergeParams u (P.foldl (fun m kv => Values.set m kv.1 kv.2) Q)) := by
      simp only [prepareURL, if_neg hlen, hu, hQ]
      rfl
    have hpreC : ∀ c ∈ u.pre, ¬ c.toNat < 32 := by
      intro c hc
      exact hctrlU c (parseGoURL_pre_mem originUrl c (by rw [hup]; exact hc))
    have hencC : ∀ c ∈ Values.encode
        (P.foldl (fun m kv => Values.set m kv.1 kv.2) Q), ¬ c.toNat < 32 := by
      intro c hc
      rcases encode_chars _ hMsafe c hc with h | h | h
      · exact safe_not_control c h
      · subst h; decide
      · subst h; decide
    constructor
    · intro hfrag
      have hmerge := mergeParams_eq u
        (P.foldl (fun m kv => Values.set m kv.1 kv.2) Q) hfrag hqp hqr
      have hencq : '?' ∉ Values.encode
          (P.foldl (fun m kv => Values.set m kv.1 kv.2) Q) := by
        intro hc
        rcases encode_chars _ hMsafe '?' hc with h | h | h
        · exact absurd h (by decide)
        · exact absurd h (by decide)
        · exact absurd h (by decide)
      have hench : '#' ∉ Values.encode
          (P.foldl (fun m kv => Values.set m kv.1 kv.2) Q) := by
        intro hc
        rcases encode_chars _ hMsafe '#' hc with h | h | h
        · exact absurd h (by decide)
        · exact absurd h (by decide)
        · exact absurd h (by decide)
      have hrebuild := parseGoURLE_rebuild u.pre
        (Values.encode (P.foldl (fun m kv => Values.set m kv.1 kv.2) Q))
        hpreC hencC hqp hhp hencq hench
      refine ⟨mergeParams u (P.foldl (fun m kv => Values.set m kv.1 kv.2) Q),
        ⟨u.pre, Values.encode (P.foldl (fun m kv => Values.set m kv.1 kv.2) Q), [],
          decide (Values.encode (P.foldl (fun m kv => Values.set m kv.1 kv.2) Q) = [])⟩,
        hres, ?_, ?_, ?_, ?_⟩
      · rw [hmerge]; exact hrebuild
      · show (goParseQuery (Values.encode
          (P.foldl (fun m kv => Values.set m kv.1 kv.2) Q))).2 = false
        rw [henc.1]
      · intro k v hkv
        show (goParseQuery (Values.encode
          (P.foldl (fun m kv => Values.set m kv.1 kv.2) Q))).1.get k = [v]
        rw [henc.1]
        show ((Values.pairs _).foldl (fun m kv => Values.add m kv.1 kv.2) []).get k = [v]
        rw [henc.2 k, get_foldl_set P Q k hPnd, hkv]
      · intro k hk
        show (goParseQuery (Values.encode
          (P.foldl (fun m kv => Values.set m kv.1 kv.2) Q))).1.get k = Values.get Q k
        rw [henc.1]
        show ((Values.pairs _).foldl (fun m kv => Values.add m kv.1 kv.2) []).get k
          = Values.get Q k
        rw [henc.2 k, get_foldl_set P Q k hPnd, hk]
    · intro hfrag hqf
      have hmergeF := mergeParams_frag_eq u
        (P.foldl (fun m kv => Values.set m kv.1 kv.2) Q) hfrag hqp hqr hqf
      have hfragC : ∀ c ∈ u.fragment, ¬ c.toNat < 32 := by
        intro c hc
        exact hctrlU c (parseGoURL_frag_mem originUrl c (by rw [hup]; exact hc))
      have hrebuildF := parseGoURLE_rebuild_frag u.pre u.fragment
        (Values.encode (P.foldl (fun m kv => Values.set m kv.1 kv.2) Q))
        hpreC hfragC hencC hhp hqp
      refine ⟨mergeParams u (P.foldl (fun m kv => Values.set m kv.1 kv.2) Q),
        ⟨u.pre, [], u.fragment ++ '?' :: Values.encode
          (P.foldl (fun m kv => Values.set m kv.1 kv.2) Q), false⟩,
        hres, ?_, rfl, fun k => rfl⟩
      rw [hmergeF]
      exact hrebuildF

/-- C2 (witness): merging `{b: 2}` into the fragment-free
`http://e.com/x?a=1` sets `b` exactly once and preserves `a`. -/
theorem prepareURL_merge_witness :
    ∃ r u2, prepareURL (str "http://e.com/x?a=1") [(str "b", str "2")] = .ok r
      ∧ parseGoURLE r = some u2
      ∧ (goParseQuery u2.rawQuery).2 = false
      ∧ (∀ k v, lookupStr [(str "b", str "2")] k = some v →
          (goParseQuery u2.rawQuery).1.get k = [v])
      ∧ (∀ k, lookupStr [(str "b", str "2")] k = none →
          (goParseQuery u2.rawQuery).1.get k
            = Values.get [(str "a", [str "1"])] k) :=
  (prepareURL_merge [(str "b", str "2")] (str "http://e.com/x?a=1")
    ⟨str "http://e.com/x", str "a=1", [], false⟩ [(str "a", [str "1"])]
    (by decide) (by decide) (by decide) rfl (by decide) (by decide)
    (by decide) rfl (by unfold SafeV; decide)).1 rfl

/-- C8 (counterexample): for the fragment-bearing base URL
`http://e.com/x?a=1#f` and the object `{b: [2]}`, the structured merge
places the merged query after the `#fragment` part; the rebuilt URL's raw
query is empty and the pre-existing value of `a` is gone — refuting "all
preserved in declaration order in the rebuilt URL's query string" for
every parsable base URL. -/
theorem prepareURLWithStruct_frag_cex :
    prepareURLWithStruct (str "http://e.com/x?a=1#f") [(str "b", [str "2"])]
      = .ok (str "http://e.com/x#f?a=1&b=2")
  ∧ (parseGoURL (str "http://e.com/x#f?a=1&b=2")).rawQuery = []
  ∧ (goParseQuery (parseGoURL (str "http://e.com/x#f?a=1&b=2")).rawQuery).1.get
      (str "a") = [] := by
  exact ⟨rfl, rfl, rfl⟩

/-- C8 (amended): for a structured query object (modelled by the
`url.Values` its reflection produces, keys distinct as a Go map
guarantees, unreserved characters) and a parsable base URL with `?`-free
prefix and raw query and a cleanly parsing query: when the URL carries no
fragment, the merge adds each field's values to the existing query without
overwriting existing values for the same key, and a key carrying several
values keeps all of them, in declaration order, in the rebuilt URL's
query; when the URL carries a fragment (itself `?`-free), the merged query
is appended after the `#fragment` part, the rebuilt URL's raw query is
empty, and nothing is preserved. -/
theorem prepareURLWithStruct_merge (ps : Values) (originUrl : Str) (u : GoURL)
    (Q : Values)
    (hpsnd : (ps.map Prod.fst).Nodup) (hpsSafe : SafeV ps)
    (hu : parseGoURLE originUrl = some u)
    (hqp : '?' ∉ u.pre) (hhp : '#' ∉ u.pre) (hqr : '?' ∉ u.rawQuery)
    (hQ : goParseQuery u.rawQuery = (Q, false))
    (hQsafe : SafeV Q) :
    (u.fragment = [] →
      ∃ r u2, prepareURLWithStruct originUrl ps = .ok r ∧ parseGoURLE r = some u2
        ∧ (goParseQuery u2.rawQuery).2 = false
        ∧ ∀ k, (goParseQuery u2.rawQuery).1.get k
            = Values.get Q k ++ Values.get ps k)
  ∧ (u.fragment ≠ [] → '?' ∉ u.fragment →
      ∃ r u2, prepareURLWithStruct originUrl ps = .ok r ∧ parseGoURLE r = some u2
        ∧ u2.rawQuery = []
        ∧ (∀ k, (goParseQuery u2.rawQuery).1.get k = [])) := by
  have hu0 := hu
  rw [parseGoURLE] at hu0
  by_cases hctrl : originUrl.any (fun c => decide (c.toNat < 32)) = true
  · rw [if_pos hctrl] at hu0
    exact absurd hu0 (by simp)
  · rw [if_neg hctrl] at hu0
    have hup : parseGoURL originUrl = u := Option.some.inj hu0
    have hctrlU : ∀ c ∈ originUrl, ¬ c.toNat < 32 := by
      rw [Bool.not_eq_true, List.any_eq_false] at hctrl
      intro c hc
      simpa using hctrl c hc
    have hQnd : (Q.map Prod.fst).Nodup := by
      have hn := nodup_parseQSegs (splitOnChar '&' u.rawQuery) [] false (by simp)
      rw [show parseQSegs (splitOnChar '&' u.rawQuery) [] false
        = goParseQuery u.rawQuery from rfl, hQ] at hn
      exact hn
    have hppSafe : ∀ kv ∈ Values.pairs ps, safeStr kv.1 = true ∧ safeStr kv.2 = true := by
      intro kv hkv
      obtain ⟨vs, h1, h2⟩ := mem_pairs ps kv hkv
      exact ⟨(hpsSafe _ h1).1, (hpsSafe _ h1).2 _ h2⟩
    have hMnd := nodup_foldl_add (Values.pairs ps) Q hQnd
    have hMsafe := safeV_foldl_add (Values.pairs ps) Q hQsafe hppSafe
    have henc := goParseQuery_encode
      ((Values.pairs ps).foldl (fun m kv => Values.add m kv.1 kv.2) Q) hMnd hMsafe
    have hres : prepareURLWithStruct originUrl ps
        = .ok (mergeParams u
            ((Values.pairs ps).foldl (fun m kv => Values.add m kv.1 kv.2) Q)) := by
      simp only [prepareURLWithStruct, hu, hQ]
      rfl
    have hpreC : ∀ c ∈ u.pre, ¬ c.toNat < 32 := by
      intro c hc
      exact hctrlU c (parseGoURL_pre_mem originUrl c (by rw [hup]; exact hc))
    have hencC : ∀ c ∈ Values.encode
        ((Values.pairs ps).foldl (fun m kv => Values.add m kv.1 kv.2) Q),
        ¬ c.toNat < 32 := by
      intro c hc
      rcases encode_chars _ hMsafe c hc with h | h | h
      · exact safe_not_control c h
      · subst h; decide
      · subst h; decide
    constructor
    · intro hfrag
      have hmerge := mergeParams_eq u
        ((Values.pairs ps).foldl (fun m kv => Values.add m kv.1 kv.2) Q) hfrag hqp hqr
      have hencq : '?' ∉ Values.encode
          ((Values.pairs ps).foldl (fun m kv => Values.add m kv.1 kv.2) Q) := by
        intro hc
        rcases encode_chars _ hMsafe '?' hc with h | h | h
        · exact absurd h (by decide)
        · exact absurd h (by decide)
        · exact absurd h (by decide)
      have hench : '#' ∉ Values.encode
          ((Values.pairs ps).foldl (fun m kv => Values.add m kv.1 kv.2) Q) := by
        intro hc
        rcases encode_chars _ hMsafe '#' hc with h | h | h
        · exact absurd h (by decide)
        · exact absurd h (by decide)
        · exact absurd h (by decide)
      have hrebuild := parseGoURLE_rebuild u.pre
        (Values.encode ((Values.pairs ps).foldl (fun m kv => Values.add m kv.1 kv.2) Q))
        hpreC hencC hqp hhp hencq hench
      refine ⟨mergeParams u
        ((Values.pairs ps).foldl (fun m kv => Values.add m kv.1 kv.2) Q),
        ⟨u.pre, Values.encode
          ((Values.pairs ps).foldl (fun m kv => Values.add m kv.1 kv.2) Q), [],
          decide (Values.encode
            ((Values.pairs ps).foldl (fun m kv => Values.add m kv.1 kv.2) Q) = [])⟩,
        hres, ?_, ?_, ?_⟩
      · rw [hmerge]; exact hrebuild
      · show (goParseQuery (Values.encode
          ((Values.pairs ps).foldl (fun m kv => Values.add m kv.1 kv.2) Q))).2 = false
        rw [henc.1]
      · intro k
        show (goParseQuery (Values.encode
          ((Values.pairs ps).foldl (fun m kv => Values.add m kv.1 kv.2) Q))).1.get k
          = Values.get Q k ++ Values.get ps k
        rw [henc.1]
        show ((Values.pairs _).foldl (fun m kv => Values.add m kv.1 kv.2) []).get k
          = Values.get Q k ++ Values.get ps k
        rw [henc.2 k, get_foldl_add, valuesFor_pairs_nodup ps hpsnd k]
    · intro hfrag hqf
      have hmergeF := mergeParams_frag_eq u
        ((Values.pairs ps).foldl (fun m kv => Values.add m kv.1 kv.2) Q) hfrag hqp hqr hqf
      have hfragC : ∀ c ∈ u.fragment, ¬ c.toNat < 32 := by
        intro c hc
        exact hctrlU c (parseGoURL_frag_mem originUrl c (by rw [hup]; exact hc))
      have hrebuildF := parseGoURLE_rebuild_frag u.pre u.fragment
        (Values.encode ((Values.pairs ps).foldl (fun m kv => Values.add m kv.1 kv.2) Q))
        hpreC hfragC hencC hhp hqp
      refine ⟨mergeParams u
        ((Values.pairs ps).foldl (fun m kv => Values.add m kv.1 kv.2) Q),
        ⟨u.pre, [], u.fragment ++ '?' :: Values.encode
          ((Values.pairs ps).foldl (fun m kv => Values.add m kv.1 kv.2) Q), false⟩,
        hres, ?_, rfl, fun k => rfl⟩
      rw [hmergeF]
      exact hrebuildF

/-- C8 (witness): adding the object `{a: [9, 8]}` to the fragment-free
`http://e.com/x?a=1` keeps the existing `a=1` and appends both values in
order. -/
theorem prepareURLWithStruct_merge_witness :
    ∃ r u2, prepareURLWithStruct (str "http://e.com/x?a=1")
        [(str "a", [str "9", str "8"])] = .ok r
      ∧ parseGoURLE r = some u2
      ∧ (goParseQuery u2.rawQuery).2 = false
      ∧ ∀ k, (goParseQuery u2.rawQuery).1.get k
          = Values.get [(str "a", [str "1"])] k
            ++ Values.get [(str "a", [str "9", str "8"])] k :=
  (prepareURLWithStruct_merge [(str "a", [str "9", str "8"])]
    (str "http://e.com/x?a=1") ⟨str "http://e.com/x", str "a=1", [], false⟩
    [(str "a", [str "1"])] (by decide) (by unfold SafeV; decide) rfl (by decide)
    (by decide) (by decide) rfl (by unfold SafeV; decide)).1 rfl

end Requests4go
